import Mathlib

/-!
# Session tokens of the webserver (`functionality/auth_std.go`, `routes/routes.go`)

A shallow embedding of the authentication layer: the token codec
(`signValue` / `verifyValue`), the session manager (`CreateSessionToken` /
`ParseSessionToken`), the secret key set-up (`init`) and the request gate
(`AuthMiddleware`).

Go strings and byte slices are lists of bytes.  The process-wide `sessionKey`
and the wall clock (`time.Now()`) are explicit arguments.  The standard
library routines the code calls (`encoding/base64`, `crypto/sha256`,
`crypto/hmac`, `crypto/subtle`, `strings`, `strconv`, `fmt`) are written out as
executable functions following their documented behaviour.
-/

namespace Webserver

/-- A Go `byte`. -/
abbrev Byte := Fin 256

/-! ## `encoding/base64`, `RawURLEncoding` -/

/-- The alphabet `encodeURL` of `encoding/base64`:
`A`-`Z`, `a`-`z`, `0`-`9`, `-`, `_`. -/
def encodeURL : List Byte :=
  [65, 66, 67, 68, 69, 70, 71, 72, 73, 74, 75, 76, 77, 78, 79, 80,
   81, 82, 83, 84, 85, 86, 87, 88, 89, 90, 97, 98, 99, 100, 101, 102,
   103, 104, 105, 106, 107, 108, 109, 110, 111, 112, 113, 114, 115, 116, 117, 118,
   119, 120, 121, 122, 48, 49, 50, 51, 52, 53, 54, 55, 56, 57, 45, 95]

/-- The character `enc.encode[v]` for a 6-bit value `v`. -/
def encodeChar (v : Nat) : Byte := encodeURL.getD v 0

/-- The table `enc.decodeMap`: the 6-bit value of an alphabet character,
`none` (Go's `0xff`) for every other byte. -/
def decodeMap (c : Byte) : Option Nat :=
  if encodeURL.indexOf c < 64 then some (encodeURL.indexOf c) else none

/-- The 6-bit groups `Encoding.Encode` emits: four for every three source
bytes, then three for two remaining bytes or two for one remaining byte, the
unused low bits zero. -/
def sextets : List Byte → List Nat
  | a :: b :: c :: rest =>
    let val := a.val * 65536 + b.val * 256 + c.val
    (val / 262144 % 64) :: (val / 4096 % 64) :: (val / 64 % 64) :: (val % 64) :: sextets rest
  | [a, b] =>
    let val := a.val * 65536 + b.val * 256
    [val / 262144 % 64, val / 4096 % 64, val / 64 % 64]
  | [a] =>
    let val := a.val * 65536
    [val / 262144 % 64, val / 4096 % 64]
  | [] => []

/-- The function `base64.RawURLEncoding.EncodeToString`: no padding character
is written. -/
def EncodeToString (src : List Byte) : List Byte :=
  (sextets src).map encodeChar

/-- The 6-bit values the decoder reads off its input: `\n` (10) and `\r`
(13) are skipped, any other byte outside the alphabet is a
`CorruptInputError`. -/
def readSextets : List Byte → Option (List Nat)
  | [] => some []
  | c :: cs =>
    match decodeMap c with
    | some v => (readSextets cs).map (fun t => v :: t)
    | none => if c = 10 ∨ c = 13 then readSextets cs else none

/-- The bytes `decodeQuantum` assembles: three for every four 6-bit values;
a final group of three gives two bytes and one of two gives one byte, the
low bits left over being dropped unchecked (the encoding is not `Strict`);
a final group of one is a `CorruptInputError`. -/
def assemble : List Nat → Option (List Byte)
  | s0 :: s1 :: s2 :: s3 :: rest =>
    let val := s0 * 262144 + s1 * 4096 + s2 * 64 + s3
    (assemble rest).map
      (fun t => Fin.ofNat (val / 65536) :: Fin.ofNat (val / 256) :: Fin.ofNat val :: t)
  | [s0, s1, s2] =>
    let val := s0 * 262144 + s1 * 4096 + s2 * 64
    some [Fin.ofNat (val / 65536), Fin.ofNat (val / 256)]
  | [s0, s1] =>
    let val := s0 * 262144 + s1 * 4096
    some [Fin.ofNat (val / 65536)]
  | [_] => none
  | [] => some []

/-- The function `base64.RawURLEncoding.DecodeString`; `none` stands for a
non-nil error. -/
def DecodeString (s : List Byte) : Option (List Byte) :=
  (readSextets s).bind assemble

/-! ## `crypto/sha256` (FIPS 180-4) -/

/-- The round constants `_K` of SHA-256. -/
def sha256K : List Nat := [
  0x428a2f98, 0x71374491, 0xb5c0fbcf, 0xe9b5dba5, 0x3956c25b, 0x59f111f1, 0x923f82a4, 0xab1c5ed5,
  0xd807aa98, 0x12835b01, 0x243185be, 0x550c7dc3, 0x72be5d74, 0x80deb1fe, 0x9bdc06a7, 0xc19bf174,
  0xe49b69c1, 0xefbe4786, 0x0fc19dc6, 0x240ca1cc, 0x2de92c6f, 0x4a7484aa, 0x5cb0a9dc, 0x76f988da,
  0x983e5152, 0xa831c66d, 0xb00327c8, 0xbf597fc7, 0xc6e00bf3, 0xd5a79147, 0x06ca6351, 0x14292967,
  0x27b70a85, 0x2e1b2138, 0x4d2c6dfc, 0x53380d13, 0x650a7354, 0x766a0abb, 0x81c2c92e, 0x92722c85,
  0xa2bfe8a1, 0xa81a664b, 0xc24b8b70, 0xc76c51a3, 0xd192e819, 0xd6990624, 0xf40e3585, 0x106aa070,
  0x19a4c116, 0x1e376c08, 0x2748774c, 0x34b0bcb5, 0x391c0cb3, 0x4ed8aa4a, 0x5b9cca4f, 0x682e6ff3,
  0x748f82ee, 0x78a5636f, 0x84c87814, 0x8cc70208, 0x90befffa, 0xa4506ceb, 0xbef9a3f7, 0xc67178f2]

/-- Rotation of a 32-bit word to the right (`bits.RotateLeft32(x, -n)`). -/
def rotr (x n : Nat) : Nat := (x >>> n) ||| ((x <<< (32 - n)) % 4294967296)

/-- The padded message: the data, the byte `0x80`, zero bytes up to 56
modulo 64, and the bit length as eight big-endian bytes. -/
def sha256Pad (msg : List Nat) : List Nat :=
  msg ++ 128 :: List.replicate ((119 - msg.length % 64) % 64) 0 ++
    (List.range 8).map (fun i => ((8 * msg.length) >>> (8 * (7 - i))) % 256)

/-- Big-endian 32-bit words of a block. -/
def beWords : List Nat → List Nat
  | a :: b :: c :: d :: rest => (a * 16777216 + b * 65536 + c * 256 + d) :: beWords rest
  | _ => []

/-- The message schedule, most recent word first: `n` more words are added
to the sixteen of the block. -/
def schedule : Nat → List Nat → List Nat
  | 0, w => w
  | n + 1, w =>
    match w with
    | _ :: w2 :: _ :: _ :: _ :: _ :: w7 :: _ :: _ :: _ :: _ :: _ :: _ :: _ :: w15 :: w16 :: _ =>
      let s0 := rotr w15 7 ^^^ rotr w15 18 ^^^ (w15 >>> 3)
      let s1 := rotr w2 17 ^^^ rotr w2 19 ^^^ (w2 >>> 10)
      schedule n (((w16 + s0 + w7 + s1) % 4294967296) :: w)
    | _ => w

/-- The eight working variables / chaining values of SHA-256. -/
structure Digest where
  a : Nat
  b : Nat
  c : Nat
  d : Nat
  e : Nat
  f : Nat
  g : Nat
  h : Nat

/-- One round of the compression function on the pair (constant, schedule word). -/
def sha256Round (s : Digest) (kw : Nat × Nat) : Digest :=
  let t1 := (s.h + (rotr s.e 6 ^^^ rotr s.e 11 ^^^ rotr s.e 25)
    + ((s.e &&& s.f) ^^^ ((s.e ^^^ 4294967295) &&& s.g)) + kw.1 + kw.2) % 4294967296
  let t2 := ((rotr s.a 2 ^^^ rotr s.a 13 ^^^ rotr s.a 22)
    + ((s.a &&& s.b) ^^^ (s.a &&& s.c) ^^^ (s.b &&& s.c))) % 4294967296
  ⟨(t1 + t2) % 4294967296, s.a, s.b, s.c, (s.d + t1) % 4294967296, s.e, s.f, s.g⟩

/-- The compression of one 64-byte block into the chaining value. -/
def sha256Block (h : Digest) (block : List Nat) : Digest :=
  let r := (sha256K.zip (schedule 48 (beWords block).reverse).reverse).foldl sha256Round h
  ⟨(h.a + r.a) % 4294967296, (h.b + r.b) % 4294967296, (h.c + r.c) % 4294967296,
   (h.d + r.d) % 4294967296, (h.e + r.e) % 4294967296, (h.f + r.f) % 4294967296,
   (h.g + r.g) % 4294967296, (h.h + r.h) % 4294967296⟩

/-- The chaining value after the first `n` blocks of `m`. -/
def sha256Blocks : Nat → List Nat → Digest → Digest
  | 0, _, h => h
  | n + 1, m, h => sha256Blocks n (m.drop 64) (sha256Block h (m.take 64))

/-- The four big-endian bytes of a 32-bit word. -/
def beBytes (w : Nat) : List Byte :=
  [Fin.ofNat (w / 16777216), Fin.ofNat (w / 65536), Fin.ofNat (w / 256), Fin.ofNat w]

/-- The function `sha256.Sum256`: the 32-byte SHA-256 digest. -/
def Sum256 (data : List Byte) : List Byte :=
  let p := sha256Pad (data.map Fin.val)
  let r := sha256Blocks (p.length / 64) p
    ⟨0x6a09e667, 0xbb67ae85, 0x3c6ef372, 0xa54ff53a, 0x510e527f, 0x9b05688c, 0x1f83d9ab, 0x5be0cd19⟩
  beBytes r.a ++ beBytes r.b ++ beBytes r.c ++ beBytes r.d ++
    beBytes r.e ++ beBytes r.f ++ beBytes r.g ++ beBytes r.h

/-! ## `crypto/hmac` (RFC 2104) and `crypto/subtle` -/

/-- The key as `hmac.New` prepares it for the 64-byte block of SHA-256: a key
longer than the block is replaced by its digest, and the result is extended
with zero bytes to the block size. -/
def hmacBlockKey (key : List Byte) : List Byte :=
  let k := if key.length > 64 then Sum256 key else key
  k ++ List.replicate (64 - k.length) 0

/-- The MAC computed by `mac := hmac.New(sha256.New, key); mac.Write(msg); mac.Sum(nil)`. -/
def hmacSHA256 (key msg : List Byte) : List Byte :=
  let k := hmacBlockKey key
  Sum256 (k.map (fun b => b ^^^ 0x5c) ++ Sum256 (k.map (fun b => b ^^^ 0x36) ++ msg))

/-- The function `subtle.ConstantTimeCompare`: 0 at once for slices of different
lengths, otherwise the XOR of each pair of bytes is OR-ed into `v` and the
result is 1 exactly when `v` is 0. -/
def ConstantTimeCompare (x y : List Byte) : Nat :=
  if x.length ≠ y.length then 0
  else if (x.zip y).foldl (fun v p => v ||| (p.1.val ^^^ p.2.val)) 0 = 0 then 1 else 0

/-! ## `strings`, `fmt`, `strconv`, `time` -/

/-- The call `strings.Split(s, sep)` for a one-byte separator: the pieces
between the occurrences of `sep`. -/
def Split (sep : Byte) : List Byte → List (List Byte)
  | [] => [[]]
  | c :: cs =>
    if c = sep then [] :: Split sep cs
    else match Split sep cs with
      | p :: ps => (c :: p) :: ps
      | [] => [[c]]

/-- The text before and after the first `sep`, if there is one (`strings.Cut`). -/
def Cut (sep : Byte) : List Byte → Option (List Byte × List Byte)
  | [] => none
  | c :: cs =>
    if c = sep then some ([], cs)
    else (Cut sep cs).map (fun p => (c :: p.1, p.2))

/-- The call `strings.SplitN(s, sep, 2)` for a one-byte separator: `s` cut at
the first `sep`, or `s` alone. -/
def SplitN2 (sep : Byte) (s : List Byte) : List (List Byte) :=
  match Cut sep s with
  | some (a, b) => [a, b]
  | none => [s]

/-- Decimal digits of `n` in front of `acc`, most significant first. -/
def formatDigits : Nat → Nat → List Byte → List Byte
  | 0, _, acc => acc
  | fuel + 1, n, acc =>
    if n / 10 = 0 then Fin.ofNat (48 + n % 10) :: acc
    else formatDigits fuel (n / 10) (Fin.ofNat (48 + n % 10) :: acc)

/-- The verb `%d` of `fmt.Sprintf` on an integer: a minus sign for a negative
number, then the decimal digits of its magnitude. -/
def FormatInt (i : Int) : List Byte :=
  if i < 0 then 45 :: formatDigits (i.natAbs + 1) i.natAbs []
  else formatDigits (i.natAbs + 1) i.natAbs []

/-- The loop of `strconv.ParseUint(s, 10, 64)` after its empty-string test:
every character must be a decimal digit and the value must stay below
`2^64`. -/
def parseDigits : List Byte → Nat → Option Nat
  | [], n => some n
  | c :: cs, n =>
    if 48 ≤ c.val ∧ c.val ≤ 57 then
      if n * 10 + (c.val - 48) < 18446744073709551616 then parseDigits cs (n * 10 + (c.val - 48))
      else none
    else none

/-- The call `strconv.ParseUint(s, 10, 64)`; `none` stands for a non-nil error. -/
def ParseUint (s : List Byte) : Option Nat :=
  if s = [] then none else parseDigits s 0

/-- The call `strconv.ParseInt(s, 10, 64)`: an optional sign `+` or `-`, then
`ParseUint`, then the range test of a signed 64-bit integer. -/
def ParseInt (s : List Byte) : Option Int :=
  match s with
  | [] => none
  | c :: cs =>
    let neg := decide (c = 45)
    let body := if c = 43 ∨ c = 45 then cs else s
    match ParseUint body with
    | none => none
    | some un =>
      if ¬ neg ∧ un ≥ 9223372036854775808 then none
      else if neg ∧ un > 9223372036854775808 then none
      else some (if neg then - (un : Int) else (un : Int))

/-- Conversion to `int64` (two's complement wrap-around). -/
def toInt64 (x : Int) : Int := (x + 9223372036854775808) % 18446744073709551616 - 9223372036854775808

/-- The method `Time.Unix`: whole seconds since the epoch, as an `int64`, of an
instant given in nanoseconds since the epoch. -/
def Unix (t : Int) : Int := toInt64 (t / 1000000000)

/-! ## `functionality/auth_std.go` -/

/-- The function `signValue`: `base64(value) + "." + base64(hmac)`. -/
def signValue (secret : List Byte) (value : List Byte) : List Byte :=
  let sig := hmacSHA256 secret value
  EncodeToString value ++ 46 :: EncodeToString sig

/-- The function `verifyValue`: splits the token at every `.`, requires
exactly two parts, decodes both, recomputes the MAC over the decoded value
and compares it with the decoded signature in constant time. -/
def verifyValue (secret : List Byte) (token : List Byte) : List Byte × Bool :=
  match Split 46 token with
  | [p0, p1] =>
    match DecodeString p0 with
    | none => ([], false)
    | some rawVal =>
      match DecodeString p1 with
      | none => ([], false)
      | some sig =>
        let expected := hmacSHA256 secret rawVal
        if ConstantTimeCompare expected sig ≠ 1 then ([], false)
        else (rawVal, true)
  | _ => ([], false)

/-- The function `CreateSessionToken` under the key `sessionKey`, the clock
reading `now` (nanoseconds since the epoch) and the lifetime `ttl`
(a `time.Duration`, nanoseconds).  The Go function also returns an error,
which is always nil. -/
def CreateSessionToken (sessionKey : List Byte) (now : Int) (userID : List Byte) (ttl : Int) :
    List Byte :=
  let exp := Unix (now + ttl)
  let value := userID ++ 58 :: FormatInt exp
  signValue sessionKey value

/-- The function `ParseSessionToken` under the key `sessionKey` and the clock
reading `now` (nanoseconds since the epoch). -/
def ParseSessionToken (sessionKey : List Byte) (now : Int) (token : List Byte) :
    List Byte × Bool :=
  match verifyValue sessionKey token with
  | (_, false) => ([], false)
  | (value, true) =>
    match SplitN2 58 value with
    | [userID, rest] =>
      match ParseInt rest with
      | none => ([], false)
      | some expUnix =>
        if Unix now > expUnix then ([], false)
        else (userID, true)
    | _ => ([], false)

/-- The function `init` of `auth_std.go`: `v` is the value of
`os.Getenv("SESSION_KEY_BASE64")` (empty when the variable is unset) and
`random` what `rand.Read` wrote into the 32-byte buffer, `none` when it failed.
The result is the `sessionKey` the function leaves behind, `none` when it
ends the process through `log.Fatalf`. -/
def init (v : List Byte) (random : Option (Fin 32 → Byte)) : Option (List Byte) :=
  let generated : Option (List Byte) :=
    match random with
    | some r => some (List.ofFn r)
    | none => none
  if v ≠ [] then
    match DecodeString v with
    | some k => if k.length ≥ 16 then some k else generated
    | none => generated
  else generated

/-! ## `routes/routes.go` -/

/-- The part of an `http.Request` the gate reads: its cookies, as pairs of a
name and a value, in the order of the header. -/
structure Request where
  cookies : List (List Byte × List Byte)

/-- The method `Request.Cookie`: the value of the first cookie of that name,
`none` for `http.ErrNoCookie`. -/
def Request.Cookie (r : Request) (name : List Byte) : Option (List Byte) :=
  (r.cookies.find? (fun c => decide (c.1 = name))).map Prod.snd

/-- What a handler built by `AuthMiddleware` does with a request: it answers
with `http.Redirect` to a location with a status code, or it calls the
wrapped handler `next`. -/
inductive Outcome where
  | redirect (location : List Byte) (code : Nat)
  | next
  deriving DecidableEq

/-- The cookie name `"session"`. -/
def sessionCookie : List Byte := [115, 101, 115, 115, 105, 111, 110]

/-- The path `"/login"`. -/
def loginPath : List Byte := [47, 108, 111, 103, 105, 110]

/-- The handler `AuthMiddleware(next)` on a request; `userExists id` tells
whether `DB.First(&u, "id = ?", id)` finds a row, and 303 is
`http.StatusSeeOther`. -/
def AuthMiddleware (sessionKey : List Byte) (now : Int) (userExists : List Byte → Bool)
    (r : Request) : Outcome :=
  match r.Cookie sessionCookie with
  | none => Outcome.redirect loginPath 303
  | some value =>
    if value = [] then Outcome.redirect loginPath 303
    else
      match ParseSessionToken sessionKey now value with
      | (userID, ok) =>
        if ok = false ∨ userID = [] then Outcome.redirect loginPath 303
        else if userExists userID = false then Outcome.redirect loginPath 303
        else Outcome.next

/-! ## Vocabulary of the properties -/

/-- The byte `c` with bit `i` flipped. -/
def flipBit (c : Byte) (i : Nat) : Byte := Fin.ofNat (c.val ^^^ 2 ^ i)

/-- The string `t` with bit `i` of its character at position `pos` flipped. -/
def tamper (t : List Byte) (pos i : Nat) : List Byte :=
  t.set pos (flipBit (t.getD pos 0) i)

/-- The number of low-order bits of the last character of the encoding of
`n` bytes that encode nothing: 4 when one byte is left over after the groups
of three, 2 when two are, none otherwise. -/
def unusedBits (n : Nat) : Nat :=
  if n % 3 = 1 then 4 else if n % 3 = 2 then 2 else 0

/-- Both characters belong to the alphabet and their 6-bit values agree on
the bits that the last character of the encoding of `n` bytes uses. -/
def sameUsedBits (n : Nat) (c d : Byte) : Bool :=
  match decodeMap c, decodeMap d with
  | some w, some u => decide (w / 2 ^ unusedBits n = u / 2 ^ unusedBits n)
  | _, _ => false

/-- A valid unpadded base64url string (RFC 4648, section 5, without `=`):
every character belongs to the URL-safe alphabet and the length is not 1
modulo 4. -/
def validRawURL (s : List Byte) : Bool :=
  s.all (fun c => decide (c ∈ encodeURL)) && decide (s.length % 4 ≠ 1)

/-- The string without the characters `\n` and `\r` that the decoder skips. -/
def dropNewlines (s : List Byte) : List Byte :=
  s.filter (fun c => decide (c ≠ 10 ∧ c ≠ 13))

/-- The payload `CreateSessionToken` signs: `fmt.Sprintf("%s:%d", userID, exp)`
with `exp := time.Now().Add(ttl).Unix()`. -/
def sessionPayload (now : Int) (userID : List Byte) (ttl : Int) : List Byte :=
  userID ++ 58 :: FormatInt (Unix (now + ttl))

/-- Flipping bit `i` of the character at position `pos` of a token whose
payload segment encodes `n` bytes and whose signature segment encodes the 32
bytes of a MAC changes nothing but bits that encode no data: the character is
the last one of the payload segment or the last one of the token, and the flip
gives an alphabet character with the same used bits. -/
def flipsUnusedBits (t : List Byte) (n pos i : Nat) : Bool :=
  (decide (pos + 1 = (4 * n + 2) / 3) &&
      sameUsedBits n (t.getD pos 0) (flipBit (t.getD pos 0) i)) ||
    (decide (pos + 1 = t.length) &&
      sameUsedBits 32 (t.getD pos 0) (flipBit (t.getD pos 0) i))

/-- A 16-byte session key for the concrete examples. -/
def exampleKey : List Byte := [1, 2, 3, 4, 5, 6, 7, 8, 9, 10, 11, 12, 13, 14, 15, 16]

/-! ## Lemmas -/

theorem decodeMap_encodeChar : ∀ v : Fin 64, decodeMap (encodeChar v.val) = some v.val := by decide

theorem decodeMap_encodeChar_of_lt {v : Nat} (h : v < 64) : decodeMap (encodeChar v) = some v :=
  decodeMap_encodeChar ⟨v, h⟩

set_option maxRecDepth 100000 in
theorem encodeChar_of_decodeMap_aux :
    ∀ c : Byte, (decodeMap c).all (fun v => decide (encodeChar v = c)) = true := by decide

theorem encodeChar_of_decodeMap {c : Byte} {v : Nat} (h : decodeMap c = some v) :
    encodeChar v = c := by
  have := encodeChar_of_decodeMap_aux c
  rw [h] at this
  simpa using this

theorem decodeMap_lt : ∀ c : Byte, ∀ v, decodeMap c = some v → v < 64 := by
  intro c v h
  unfold decodeMap at h
  split at h
  · cases h; assumption
  · cases h

theorem sextets_lt : ∀ (x : List Byte) (v : Nat), v ∈ sextets x → v < 64
  | [], v, h => by simp [sextets] at h
  | [a], v, h => by
    simp only [sextets, List.mem_cons, List.mem_singleton, List.not_mem_nil, or_false] at h
    omega
  | [a, b], v, h => by
    simp only [sextets, List.mem_cons, List.mem_singleton, List.not_mem_nil, or_false] at h
    omega
  | a :: b :: c :: rest, v, h => by
    simp only [sextets, List.mem_cons] at h
    rcases h with h | h | h | h | h
    · omega
    · omega
    · omega
    · omega
    · exact sextets_lt rest v h

theorem readSextets_map_encodeChar : ∀ l : List Nat, (∀ v ∈ l, v < 64) →
    readSextets (l.map encodeChar) = some l
  | [], _ => rfl
  | v :: t, h => by
    have hv : v < 64 := h v (List.mem_cons_self _ _)
    have ht := readSextets_map_encodeChar t (fun w hw => h w (List.mem_cons_of_mem _ hw))
    simp [readSextets, decodeMap_encodeChar_of_lt hv, ht]

theorem assemble_sextets : ∀ x : List Byte, assemble (sextets x) = some x
  | [] => rfl
  | [a] => by
    simp only [sextets, assemble, Option.some.injEq, List.cons.injEq, and_true]
    apply Fin.ext
    simp only [Fin.ofNat, Fin.val_mk]
    omega
  | [a, b] => by
    simp only [sextets, assemble, Option.some.injEq, List.cons.injEq, and_true]
    constructor <;> apply Fin.ext <;> simp only [Fin.ofNat, Fin.val_mk] <;> omega
  | a :: b :: c :: rest => by
    simp only [sextets, assemble, assemble_sextets rest, Option.map_some', Option.some.injEq,
      List.cons.injEq, and_true]
    refine ⟨?_, ?_, ?_⟩ <;> apply Fin.ext <;> simp only [Fin.ofNat, Fin.val_mk] <;> omega

theorem DecodeString_EncodeToString (x : List Byte) : DecodeString (EncodeToString x) = some x := by
  simp [DecodeString, EncodeToString, readSextets_map_encodeChar _ (sextets_lt x), assemble_sextets]

set_option maxRecDepth 100000 in
theorem encodeChar_mem_aux : ∀ v : Fin 64,
    encodeChar v.val ≠ 46 ∧ encodeChar v.val ≠ 10 ∧ encodeChar v.val ≠ 13 := by decide

theorem encodeChar_ne_dot {v : Nat} (h : v < 64) : encodeChar v ≠ 46 :=
  (encodeChar_mem_aux ⟨v, h⟩).1

theorem dot_not_mem_EncodeToString (x : List Byte) : (46 : Byte) ∉ EncodeToString x := by
  intro h
  simp only [EncodeToString, List.mem_map] at h
  obtain ⟨v, hv, he⟩ := h
  exact encodeChar_ne_dot (sextets_lt x v hv) he

theorem Split_of_not_mem (sep : Byte) : ∀ a : List Byte, sep ∉ a → Split sep a = [a]
  | [], _ => rfl
  | c :: cs, h => by
    have hc : c ≠ sep := fun e => h (e ▸ List.mem_cons_self _ _)
    have ht := Split_of_not_mem sep cs (fun m => h (List.mem_cons_of_mem _ m))
    simp [Split, hc, ht]

theorem Split_append (sep : Byte) (b : List Byte) : ∀ a : List Byte, sep ∉ a →
    Split sep (a ++ sep :: b) = a :: Split sep b
  | [], _ => by simp [Split]
  | c :: cs, h => by
    have hc : c ≠ sep := fun e => h (e ▸ List.mem_cons_self _ _)
    have ht := Split_append sep b cs (fun m => h (List.mem_cons_of_mem _ m))
    simp [Split, hc, ht]

theorem Split_two (sep : Byte) (a b : List Byte) (ha : sep ∉ a) (hb : sep ∉ b) :
    Split sep (a ++ sep :: b) = [a, b] := by
  rw [Split_append sep b a ha, Split_of_not_mem sep b hb]

theorem Split_length (sep : Byte) : ∀ s : List Byte, (Split sep s).length = s.count sep + 1
  | [] => rfl
  | c :: cs => by
    have ih := Split_length sep cs
    by_cases hc : c = sep
    · subst hc
      simp [Split, ih]
    · have hne : (c == sep) = false := by simpa using hc
      cases hsp : Split sep cs with
      | nil => rw [hsp] at ih; simp at ih
      | cons p ps =>
        rw [hsp] at ih
        simp only [Split, hc, if_false, hsp, List.length_cons] at ih ⊢
        rw [List.count_cons, hne]
        simpa using ih

theorem nat_or_eq_zero (a b : Nat) : a ||| b = 0 ↔ a = 0 ∧ b = 0 := by
  constructor
  · intro h
    have ht : ∀ i, (a.testBit i || b.testBit i) = false := by
      intro i
      rw [← Nat.testBit_or, h, Nat.zero_testBit]
    constructor <;> apply Nat.eq_of_testBit_eq <;> intro i <;> have := ht i <;>
      simp only [Bool.or_eq_false_iff] at this <;> simp [this.1, this.2]
  · rintro ⟨rfl, rfl⟩
    rfl

theorem foldl_or_eq_zero : ∀ (l : List (Byte × Byte)) (v : Nat),
    l.foldl (fun v p => v ||| (p.1.val ^^^ p.2.val)) v = 0 ↔ v = 0 ∧ ∀ p ∈ l, p.1 = p.2
  | [], v => by simp
  | p :: t, v => by
    rw [List.foldl_cons, foldl_or_eq_zero t]
    have hx : p.1.val ^^^ p.2.val = 0 ↔ p.1 = p.2 := by
      rw [Nat.xor_eq_zero]
      exact ⟨fun h => Fin.ext h, fun h => by rw [h]⟩
    simp only [nat_or_eq_zero, List.mem_cons, forall_eq_or_imp, hx]
    tauto

theorem zip_all_eq : ∀ (x y : List Byte), x.length = y.length →
    ((∀ p ∈ x.zip y, p.1 = p.2) ↔ x = y)
  | [], [], _ => by simp
  | [], _ :: _, h => by simp at h
  | _ :: _, [], h => by simp at h
  | a :: x, b :: y, h => by
    have ih := zip_all_eq x y (by simpa using h)
    simp only [List.zip_cons_cons, List.mem_cons, forall_eq_or_imp, ih, List.cons.injEq]

theorem ConstantTimeCompare_eq_one (x y : List Byte) : ConstantTimeCompare x y = 1 ↔ x = y := by
  unfold ConstantTimeCompare
  by_cases hl : x.length = y.length
  · simp only [hl, ne_eq, not_true_eq_false, if_false]
    have := foldl_or_eq_zero (x.zip y) 0
    by_cases hz : (x.zip y).foldl (fun v p => v ||| (p.1.val ^^^ p.2.val)) 0 = 0
    · simp only [hz, if_true, true_iff]
      exact (zip_all_eq x y hl).1 (this.1 hz).2
    · simp only [hz, if_false]
      constructor
      · intro h; cases h
      · intro h
        exact absurd (this.2 ⟨rfl, (zip_all_eq x y hl).2 h⟩) hz
  · simp only [ne_eq, hl, not_false_eq_true, if_true]
    constructor
    · intro h; cases h
    · intro h; exact absurd (by rw [h]) hl

/-- What `verifyValue` returns on a token of two dot-free parts. -/
theorem verifyValue_parts (secret a b : List Byte) (ha : (46 : Byte) ∉ a) (hb : (46 : Byte) ∉ b) :
    verifyValue secret (a ++ 46 :: b) =
      match DecodeString a, DecodeString b with
      | some v, some sg => if hmacSHA256 secret v = sg then (v, true) else ([], false)
      | _, _ => ([], false) := by
  unfold verifyValue
  rw [Split_two 46 a b ha hb]
  cases hda : DecodeString a with
  | none => simp [hda]
  | some v =>
    cases hdb : DecodeString b with
    | none => simp [hda, hdb]
    | some sg =>
      by_cases he : hmacSHA256 secret v = sg
      · simp [hda, hdb, he, (ConstantTimeCompare_eq_one sg sg).2 rfl]
      · have : ConstantTimeCompare (hmacSHA256 secret v) sg ≠ 1 :=
          fun h => he ((ConstantTimeCompare_eq_one _ _).1 h)
        simp [hda, hdb, he, this]

theorem verifyValue_signValue (secret value : List Byte) :
    verifyValue secret (signValue secret value) = (value, true) := by
  unfold signValue
  rw [verifyValue_parts _ _ _ (dot_not_mem_EncodeToString _) (dot_not_mem_EncodeToString _)]
  simp [DecodeString_EncodeToString]

theorem digit_val (n : Nat) : (Fin.ofNat (48 + n % 10) : Byte).val = 48 + n % 10 := by
  simp only [Fin.ofNat, Fin.val_mk]
  omega

theorem parseDigits_formatDigits : ∀ (fuel n : Nat) (acc : List Byte), n < fuel →
    n < 18446744073709551616 →
    parseDigits (formatDigits fuel n acc) 0 = parseDigits acc n
  | 0, _, _, h, _ => by omega
  | fuel + 1, n, acc, h, hn => by
    unfold formatDigits
    by_cases h0 : n / 10 = 0
    · simp only [h0, if_true, parseDigits, digit_val]
      have h1 : 48 ≤ 48 + n % 10 ∧ 48 + n % 10 ≤ 57 := by omega
      have h2 : 0 * 10 + (48 + n % 10 - 48) < 18446744073709551616 := by omega
      have h3 : 0 * 10 + (48 + n % 10 - 48) = n := by omega
      rw [if_pos h1, if_pos h2, h3]
    · simp only [h0, if_false]
      rw [parseDigits_formatDigits fuel (n / 10) _ (by omega) (by omega)]
      simp only [parseDigits, digit_val]
      have h1 : 48 ≤ 48 + n % 10 ∧ 48 + n % 10 ≤ 57 := by omega
      have h2 : n / 10 * 10 + (48 + n % 10 - 48) < 18446744073709551616 := by omega
      have h3 : n / 10 * 10 + (48 + n % 10 - 48) = n := by omega
      rw [if_pos h1, if_pos h2, h3]

theorem formatDigits_head : ∀ (fuel n : Nat) (acc : List Byte),
    ∃ c rest, formatDigits (fuel + 1) n acc = c :: rest ∧ 48 ≤ c.val ∧ c.val ≤ 57
  | 0, n, acc => by
    refine ⟨Fin.ofNat (48 + n % 10), acc, ?_, by rw [digit_val]; omega, by rw [digit_val]; omega⟩
    unfold formatDigits
    by_cases h0 : n / 10 = 0
    · simp [h0]
    · simp [h0, formatDigits]
  | fuel + 1, n, acc => by
    unfold formatDigits
    by_cases h0 : n / 10 = 0
    · exact ⟨Fin.ofNat (48 + n % 10), acc, by simp [h0], by rw [digit_val]; omega,
        by rw [digit_val]; omega⟩
    · simp only [h0, if_false]
      exact formatDigits_head fuel (n / 10) _

theorem ParseUint_formatDigits (n : Nat) (hn : n < 18446744073709551616) :
    ParseUint (formatDigits (n + 1) n []) = some n := by
  obtain ⟨c, rest, he, _⟩ := formatDigits_head n n []
  unfold ParseUint
  rw [if_neg (by rw [he]; simp)]
  rw [parseDigits_formatDigits (n + 1) n [] (by omega) hn]
  rfl

theorem ParseInt_FormatInt (i : Int) (hlo : -9223372036854775808 ≤ i)
    (hhi : i < 9223372036854775808) : ParseInt (FormatInt i) = some i := by
  unfold FormatInt
  by_cases hneg : i < 0
  · rw [if_pos hneg]
    have hu := ParseUint_formatDigits i.natAbs (by omega)
    have hb : i.natAbs ≤ 9223372036854775808 := by omega
    have hi : -(i.natAbs : Int) = i := by omega
    simp only [ParseInt, hu, decide_True, or_true, if_true, Bool.not_true, Bool.false_eq_true,
      false_and, if_false, true_and, gt_iff_lt, not_lt.2 hb, hi]
    simp
  · rw [if_neg hneg]
    obtain ⟨c, rest, he, hc1, hc2⟩ := formatDigits_head i.natAbs i.natAbs []
    have hu := ParseUint_formatDigits i.natAbs (by omega)
    rw [he] at hu ⊢
    have h45 : c ≠ 45 := by
      intro h; rw [h] at hc1; revert hc1; decide
    have h43 : c ≠ 43 := by
      intro h; rw [h] at hc1; revert hc1; decide
    have hb : ¬ i.natAbs ≥ 9223372036854775808 := by omega
    have hi : (i.natAbs : Int) = i := by omega
    simp only [ParseInt, h45, h43, or_self, if_false, hu, decide_False, Bool.not_false,
      true_and, Bool.false_eq_true, false_and, hb, hi]
    simp

theorem toInt64_range (x : Int) :
    -9223372036854775808 ≤ toInt64 x ∧ toInt64 x < 9223372036854775808 := by
  unfold toInt64
  omega

theorem parseDigits_none_of_mem : ∀ (s : List Byte) (n : Nat) (c : Byte), c ∈ s →
    ¬ (48 ≤ c.val ∧ c.val ≤ 57) → parseDigits s n = none
  | [], _, _, h, _ => by simp at h
  | d :: ds, n, c, h, hc => by
    unfold parseDigits
    by_cases hd : 48 ≤ d.val ∧ d.val ≤ 57
    · rw [if_pos hd]
      have hm : c ∈ ds := by
        rcases List.mem_cons.1 h with e | m
        · exact absurd (e ▸ hd) hc
        · exact m
      split
      · exact parseDigits_none_of_mem ds _ c hm hc
      · rfl
    · rw [if_neg hd]

theorem ParseInt_none_of_colon (s : List Byte) (h : (58 : Byte) ∈ s) : ParseInt s = none := by
  have h58 : ¬ (48 ≤ (58 : Byte).val ∧ (58 : Byte).val ≤ 57) := by decide
  cases s with
  | nil => rfl
  | cons c cs =>
    have hu : ParseUint (if c = 43 ∨ c = 45 then cs else c :: cs) = none := by
      by_cases hs : c = 43 ∨ c = 45
      · rw [if_pos hs]
        have hm : (58 : Byte) ∈ cs := by
          rcases List.mem_cons.1 h with e | m
          · rcases hs with e2 | e2 <;> rw [e2] at e <;> exact absurd e (by decide)
          · exact m
        unfold ParseUint
        split
        · rfl
        · exact parseDigits_none_of_mem _ 0 58 hm h58
      · rw [if_neg hs]
        unfold ParseUint
        rw [if_neg (by simp)]
        exact parseDigits_none_of_mem _ 0 58 h h58
    simp only [ParseInt, hu]

theorem Cut_append (sep : Byte) (b : List Byte) : ∀ a : List Byte, sep ∉ a →
    Cut sep (a ++ sep :: b) = some (a, b)
  | [], _ => by simp [Cut]
  | c :: cs, h => by
    have hc : c ≠ sep := fun e => h (e ▸ List.mem_cons_self _ _)
    have ht := Cut_append sep b cs (fun m => h (List.mem_cons_of_mem _ m))
    simp [Cut, hc, ht]

theorem exists_first (sep : Byte) : ∀ s : List Byte, sep ∈ s →
    ∃ a b, s = a ++ sep :: b ∧ sep ∉ a
  | [], h => by simp at h
  | c :: cs, h => by
    by_cases hc : c = sep
    · exact ⟨[], cs, by simp [hc], by simp⟩
    · have hm : sep ∈ cs := by
        rcases List.mem_cons.1 h with e | m
        · exact absurd e.symm hc
        · exact m
      obtain ⟨a, b, he, ha⟩ := exists_first sep cs hm
      refine ⟨c :: a, b, by simp [he], ?_⟩
      intro hmem
      rcases List.mem_cons.1 hmem with e | m
      · exact hc e.symm
      · exact ha m

/-- What `ParseSessionToken` does once `verifyValue` has returned `value`. -/
theorem ParseSessionToken_of_verify (key : List Byte) (now : Int) (token value : List Byte)
    (h : verifyValue key token = (value, true)) :
    ParseSessionToken key now token =
      match SplitN2 58 value with
      | [userID, rest] =>
        match ParseInt rest with
        | none => ([], false)
        | some expUnix => if Unix now > expUnix then ([], false) else (userID, true)
      | _ => ([], false) := by
  unfold ParseSessionToken
  rw [h]

theorem ParseSessionToken_of_reject (key : List Byte) (now : Int) (token : List Byte)
    (h : (verifyValue key token).2 = false) :
    ParseSessionToken key now token = ([], false) := by
  unfold ParseSessionToken
  cases hv : verifyValue key token with
  | mk v ok =>
    rw [hv] at h
    simp only at h
    subst h
    rfl

/-- The result of resolving a freshly issued token of a colon-free subject. -/
theorem resolve_issue (key s : List Byte) (now ttl now2 : Int) (hs : (58 : Byte) ∉ s) :
    ParseSessionToken key now2 (CreateSessionToken key now s ttl) =
      if Unix now2 > Unix (now + ttl) then ([], false) else (s, true) := by
  unfold CreateSessionToken
  rw [ParseSessionToken_of_verify _ _ _ _ (verifyValue_signValue _ _)]
  have hr := toInt64_range ((now + ttl) / 1000000000)
  simp only [SplitN2, Cut_append 58 _ s hs, ParseInt_FormatInt _ hr.1 hr.2, Unix]

/-- The result of resolving a freshly issued token of a subject with a colon. -/
theorem resolve_issue_colon (key s : List Byte) (now ttl now2 : Int) (hs : (58 : Byte) ∈ s) :
    ParseSessionToken key now2 (CreateSessionToken key now s ttl) = ([], false) := by
  unfold CreateSessionToken
  rw [ParseSessionToken_of_verify _ _ _ _ (verifyValue_signValue _ _)]
  obtain ⟨a, b, he, ha⟩ := exists_first 58 s hs
  have hcut : Cut 58 (s ++ 58 :: FormatInt (Unix (now + ttl))) =
      some (a, b ++ 58 :: FormatInt (Unix (now + ttl))) := by
    rw [he, List.append_assoc, List.cons_append]
    exact Cut_append 58 _ a ha
  simp only [SplitN2, hcut, ParseInt_none_of_colon _ (List.mem_append_right b (List.mem_cons_self _ _))]

theorem unusedBits_add_three (n : Nat) : unusedBits (n + 3) = unusedBits n := by
  unfold unusedBits
  rw [Nat.add_mod_right]

theorem assemble_spec : ∀ (l : List Nat) (x : List Byte), assemble l = some x →
    (∀ v ∈ l, v < 64) →
    l.length = (sextets x).length ∧
    ∀ j, j < l.length →
      (j + 1 < l.length → l.getD j 0 = (sextets x).getD j 0) ∧
      (j + 1 = l.length →
        l.getD j 0 / 2 ^ unusedBits x.length = (sextets x).getD j 0 / 2 ^ unusedBits x.length)
  | [], x, h, _ => by
    simp only [assemble, Option.some.injEq] at h
    subst h
    exact ⟨rfl, fun j hj => absurd hj (Nat.not_lt_zero _)⟩
  | [_], x, h, _ => by simp [assemble] at h
  | [s0, s1], x, h, hb => by
    have h0 : s0 < 64 := hb s0 (by simp)
    have h1 : s1 < 64 := hb s1 (by simp)
    simp only [assemble, Option.some.injEq] at h
    subst h
    refine ⟨by simp [sextets], ?_⟩
    intro j hj
    simp only [List.length_cons, List.length_nil] at hj
    have hu : unusedBits ([Fin.ofNat ((s0 * 262144 + s1 * 4096) / 65536)] : List Byte).length = 4 := by
      simp [unusedBits]
    rw [hu]
    rcases j with _ | _ | j
    · simp only [sextets, Fin.ofNat, List.getD_cons_zero, List.length_cons, List.length_nil]
      constructor
      · intro _; omega
      · intro hh; omega
    · simp only [sextets, Fin.ofNat, List.getD_cons_zero, List.getD_cons_succ, List.length_cons,
        List.length_nil]
      constructor
      · intro hh; omega
      · intro _; omega
    · omega
  | [s0, s1, s2], x, h, hb => by
    have h0 : s0 < 64 := hb s0 (by simp)
    have h1 : s1 < 64 := hb s1 (by simp)
    have h2 : s2 < 64 := hb s2 (by simp)
    simp only [assemble, Option.some.injEq] at h
    subst h
    refine ⟨by simp [sextets], ?_⟩
    intro j hj
    simp only [List.length_cons, List.length_nil] at hj
    have hu : unusedBits ([Fin.ofNat ((s0 * 262144 + s1 * 4096 + s2 * 64) / 65536),
        Fin.ofNat ((s0 * 262144 + s1 * 4096 + s2 * 64) / 256)] : List Byte).length = 2 := by
      simp [unusedBits]
    rw [hu]
    rcases j with _ | _ | _ | j
    · simp only [sextets, Fin.ofNat, List.getD_cons_zero, List.length_cons, List.length_nil]
      constructor
      · intro _; omega
      · intro hh; omega
    · simp only [sextets, Fin.ofNat, List.getD_cons_zero, List.getD_cons_succ, List.length_cons,
        List.length_nil]
      constructor
      · intro _; omega
      · intro hh; omega
    · simp only [sextets, Fin.ofNat, List.getD_cons_zero, List.getD_cons_succ, List.length_cons,
        List.length_nil]
      constructor
      · intro hh; omega
      · intro _; omega
    · omega
  | s0 :: s1 :: s2 :: s3 :: rest, x, h, hb => by
    have h0 : s0 < 64 := hb s0 (by simp)
    have h1 : s1 < 64 := hb s1 (by simp)
    have h2 : s2 < 64 := hb s2 (by simp)
    have h3 : s3 < 64 := hb s3 (by simp)
    have hrest : ∀ v ∈ rest, v < 64 := fun v hv => hb v (by simp [hv])
    simp only [assemble] at h
    cases hr : assemble rest with
    | none => rw [hr] at h; simp at h
    | some x' =>
      rw [hr] at h
      simp only [Option.map_some', Option.some.injEq] at h
      subst h
      obtain ⟨ihl, ihj⟩ := assemble_spec rest x' hr hrest
      refine ⟨by simp [sextets, ihl], ?_⟩
      intro j hj
      have hu : unusedBits (Fin.ofNat ((s0 * 262144 + s1 * 4096 + s2 * 64 + s3) / 65536) ::
          Fin.ofNat ((s0 * 262144 + s1 * 4096 + s2 * 64 + s3) / 256) ::
          Fin.ofNat (s0 * 262144 + s1 * 4096 + s2 * 64 + s3) :: x' : List Byte).length =
          unusedBits x'.length := by
        simp only [List.length_cons]
        exact unusedBits_add_three _
      rw [hu]
      have e0 : s0 = (((s0 * 262144 + s1 * 4096 + s2 * 64 + s3) / 65536 % 256) * 65536 +
          ((s0 * 262144 + s1 * 4096 + s2 * 64 + s3) / 256 % 256) * 256 +
          (s0 * 262144 + s1 * 4096 + s2 * 64 + s3) % 256) / 262144 % 64 := by omega
      have e1 : s1 = (((s0 * 262144 + s1 * 4096 + s2 * 64 + s3) / 65536 % 256) * 65536 +
          ((s0 * 262144 + s1 * 4096 + s2 * 64 + s3) / 256 % 256) * 256 +
          (s0 * 262144 + s1 * 4096 + s2 * 64 + s3) % 256) / 4096 % 64 := by omega
      have e2 : s2 = (((s0 * 262144 + s1 * 4096 + s2 * 64 + s3) / 65536 % 256) * 65536 +
          ((s0 * 262144 + s1 * 4096 + s2 * 64 + s3) / 256 % 256) * 256 +
          (s0 * 262144 + s1 * 4096 + s2 * 64 + s3) % 256) / 64 % 64 := by omega
      have e3 : s3 = (((s0 * 262144 + s1 * 4096 + s2 * 64 + s3) / 65536 % 256) * 65536 +
          ((s0 * 262144 + s1 * 4096 + s2 * 64 + s3) / 256 % 256) * 256 +
          (s0 * 262144 + s1 * 4096 + s2 * 64 + s3) % 256) % 64 := by omega
      rcases j with _ | _ | _ | _ | j
      · simp only [sextets, Fin.ofNat, List.getD_cons_zero]
        exact ⟨fun _ => e0, fun _ => by rw [← e0]⟩
      · simp only [sextets, Fin.ofNat, List.getD_cons_zero, List.getD_cons_succ]
        exact ⟨fun _ => e1, fun _ => by rw [← e1]⟩
      · simp only [sextets, Fin.ofNat, List.getD_cons_zero, List.getD_cons_succ]
        exact ⟨fun _ => e2, fun _ => by rw [← e2]⟩
      · simp only [sextets, Fin.ofNat, List.getD_cons_zero, List.getD_cons_succ]
        exact ⟨fun _ => e3, fun _ => by rw [← e3]⟩
      · simp only [List.length_cons] at hj ⊢
        have hj' : j < rest.length := by omega
        obtain ⟨a1, a2⟩ := ihj j hj'
        simp only [sextets, List.getD_cons_succ]
        exact ⟨fun hh => a1 (by omega), fun hh => a2 (by omega)⟩

theorem readSextets_set_some : ∀ (l : List Nat) (p : Nat) (c : Byte) (w : Nat),
    (∀ v ∈ l, v < 64) → decodeMap c = some w →
    readSextets ((l.map encodeChar).set p c) = some (l.set p w)
  | [], _, _, _, _, _ => by simp [readSextets]
  | v :: t, 0, c, w, hb, hc => by
    have ht := readSextets_map_encodeChar t (fun u hu => hb u (List.mem_cons_of_mem _ hu))
    simp [readSextets, hc, ht]
  | v :: t, p + 1, c, w, hb, hc => by
    have hv : v < 64 := hb v (List.mem_cons_self _ _)
    have ih := readSextets_set_some t p c w (fun u hu => hb u (List.mem_cons_of_mem _ hu)) hc
    simp [readSextets, decodeMap_encodeChar_of_lt hv, ih]

theorem decodeMap_newline : decodeMap 10 = none ∧ decodeMap 13 = none := by decide

theorem readSextets_set_newline : ∀ (l : List Nat) (p : Nat) (c : Byte),
    (∀ v ∈ l, v < 64) → c = 10 ∨ c = 13 → p < l.length →
    readSextets ((l.map encodeChar).set p c) = some (l.eraseIdx p)
  | [], _, _, _, _, hp => by simp at hp
  | v :: t, 0, c, hb, hc, _ => by
    have ht := readSextets_map_encodeChar t (fun u hu => hb u (List.mem_cons_of_mem _ hu))
    have hd : decodeMap c = none := by
      rcases hc with e | e <;> rw [e]
      · exact decodeMap_newline.1
      · exact decodeMap_newline.2
    simp [readSextets, hd, hc, ht]
  | v :: t, p + 1, c, hb, hc, hp => by
    have hv : v < 64 := hb v (List.mem_cons_self _ _)
    have ih := readSextets_set_newline t p c (fun u hu => hb u (List.mem_cons_of_mem _ hu)) hc
      (by simpa using hp)
    simp [readSextets, decodeMap_encodeChar_of_lt hv, ih]

theorem readSextets_set_bad : ∀ (l : List Nat) (p : Nat) (c : Byte),
    (∀ v ∈ l, v < 64) → decodeMap c = none → c ≠ 10 → c ≠ 13 → p < l.length →
    readSextets ((l.map encodeChar).set p c) = none
  | [], _, _, _, _, _, _, hp => by simp at hp
  | v :: t, 0, c, _, hd, h10, h13, _ => by
    simp [readSextets, hd, h10, h13]
  | v :: t, p + 1, c, hb, hd, h10, h13, hp => by
    have hv : v < 64 := hb v (List.mem_cons_self _ _)
    have ih := readSextets_set_bad t p c (fun u hu => hb u (List.mem_cons_of_mem _ hu)) hd h10 h13
      (by simpa using hp)
    simp [readSextets, decodeMap_encodeChar_of_lt hv, ih]

set_option maxRecDepth 1000000 in
theorem flipBit_ne_aux : ∀ i : Fin 8, ∀ c : Byte, flipBit c i.val ≠ c := by decide

theorem flipBit_ne (c : Byte) (i : Nat) (hi : i < 8) : flipBit c i ≠ c :=
  flipBit_ne_aux ⟨i, hi⟩ c

theorem getD_EncodeToString (x : List Byte) (p : Nat) (hp : p < (sextets x).length) :
    (EncodeToString x).getD p 0 = encodeChar ((sextets x).getD p 0) := by
  unfold EncodeToString
  rw [List.getD_eq_getElem _ _ (by simpa using hp), List.getD_eq_getElem _ _ hp,
    List.getElem_map]

/-- A segment with one character replaced decodes to the original bytes only
if the replaced character is its last one and the used bits are the same. -/
theorem tampered_segment (x : List Byte) (p : Nat) (c : Byte)
    (hp : p < (EncodeToString x).length)
    (hne : c ≠ (EncodeToString x).getD p 0)
    (hdec : DecodeString ((EncodeToString x).set p c) = some x) :
    p + 1 = (EncodeToString x).length ∧
      sameUsedBits x.length ((EncodeToString x).getD p 0) c = true := by
  have hb := sextets_lt x
  have hpl : p < (sextets x).length := by simpa [EncodeToString] using hp
  have hlen : (EncodeToString x).length = (sextets x).length := by simp [EncodeToString]
  have hold := getD_EncodeToString x p hpl
  have hwlt : (sextets x).getD p 0 < 64 := by
    rw [List.getD_eq_getElem _ _ hpl]
    exact hb _ (List.getElem_mem _)
  unfold DecodeString at hdec
  cases hd : decodeMap c with
  | some w =>
    have hr : readSextets ((EncodeToString x).set p c) = some ((sextets x).set p w) :=
      readSextets_set_some (sextets x) p c w hb hd
    rw [hr] at hdec
    replace hdec : assemble ((sextets x).set p w) = some x := hdec
    have hw : w < 64 := decodeMap_lt c w hd
    have hb' : ∀ v ∈ (sextets x).set p w, v < 64 := by
      intro v hv
      rcases List.mem_or_eq_of_mem_set hv with h | h
      · exact hb v h
      · rw [h]; exact hw
    obtain ⟨_, hj⟩ := assemble_spec _ x hdec hb'
    have hps : p < ((sextets x).set p w).length := by simpa using hpl
    obtain ⟨h1, h2⟩ := hj p hps
    have hget : ((sextets x).set p w).getD p 0 = w := by
      rw [List.getD_eq_getElem _ _ hps, List.getElem_set_self]
    rw [hget] at h1 h2
    have hnw : w ≠ (sextets x).getD p 0 := by
      intro e
      apply hne
      rw [hold, ← e]
      exact (encodeChar_of_decodeMap hd).symm
    have hlast : p + 1 = (sextets x).length := by
      by_contra hcon
      exact hnw (h1 (by simp only [List.length_set]; omega))
    refine ⟨by rw [hlen]; exact hlast, ?_⟩
    have h2' := h2 (by simp only [List.length_set]; exact hlast)
    unfold sameUsedBits
    rw [hold, decodeMap_encodeChar_of_lt hwlt, hd]
    simp only [decide_eq_true_eq]
    exact h2'.symm
  | none =>
    by_cases hnl : c = 10 ∨ c = 13
    · have hr : readSextets ((EncodeToString x).set p c) = some ((sextets x).eraseIdx p) :=
        readSextets_set_newline (sextets x) p c hb hnl hpl
      rw [hr] at hdec
      replace hdec : assemble ((sextets x).eraseIdx p) = some x := hdec
      have hb' : ∀ v ∈ (sextets x).eraseIdx p, v < 64 :=
        fun v hv => hb v (List.mem_of_mem_eraseIdx hv)
      obtain ⟨hl, _⟩ := assemble_spec _ x hdec hb'
      rw [List.length_eraseIdx_of_lt hpl] at hl
      omega
    · have h10 : c ≠ 10 := fun e => hnl (Or.inl e)
      have h13 : c ≠ 13 := fun e => hnl (Or.inr e)
      have hr : readSextets ((EncodeToString x).set p c) = none :=
        readSextets_set_bad (sextets x) p c hb hd h10 h13 hpl
      rw [hr] at hdec
      simp at hdec

theorem verifyValue_of_Split_length (key t : List Byte) (h : (Split 46 t).length ≠ 2) :
    verifyValue key t = ([], false) := by
  unfold verifyValue
  split
  · rename_i p0 p1 heq
    rw [heq] at h
    simp at h
  · rfl

theorem verifyValue_of_count (key t : List Byte) (h : t.count 46 ≠ 1) :
    verifyValue key t = ([], false) := by
  apply verifyValue_of_Split_length
  rw [Split_length]
  omega

theorem sextets_length : ∀ x : List Byte, (sextets x).length = (4 * x.length + 2) / 3
  | [] => rfl
  | [_] => by simp [sextets]
  | [_, _] => by simp [sextets]
  | _ :: _ :: _ :: rest => by
    simp only [sextets, List.length_cons, sextets_length rest]
    omega

set_option maxRecDepth 100000 in
theorem encodeChar_mem_encodeURL_aux : ∀ v : Fin 64, encodeChar v.val ∈ encodeURL := by decide

theorem mem_encodeURL_of_mem_EncodeToString (x : List Byte) (c : Byte)
    (h : c ∈ EncodeToString x) : c ∈ encodeURL := by
  simp only [EncodeToString, List.mem_map] at h
  obtain ⟨v, hv, he⟩ := h
  rw [← he]
  exact encodeChar_mem_encodeURL_aux ⟨v, sextets_lt x v hv⟩

theorem Sum256_length (data : List Byte) : (Sum256 data).length = 32 := by
  simp [Sum256, beBytes]

theorem hmacSHA256_length (key msg : List Byte) : (hmacSHA256 key msg).length = 32 := by
  unfold hmacSHA256
  exact Sum256_length _

/-- What `verifyValue` under one key returns on a token signed under another. -/
theorem verifyValue_other_key (k1 k2 v : List Byte) :
    verifyValue k2 (signValue k1 v) =
      if hmacSHA256 k2 v = hmacSHA256 k1 v then (v, true) else ([], false) := by
  unfold signValue
  rw [verifyValue_parts _ _ _ (dot_not_mem_EncodeToString _) (dot_not_mem_EncodeToString _)]
  simp [DecodeString_EncodeToString]

theorem count_dot_set (a : List Byte) (p : Nat) (hp : p < a.length) (b : List Byte) :
    (a.set p 46 ++ 46 :: b).count 46 ≠ 1 := by
  have hm : (46 : Byte) ∈ a.set p 46 := List.mem_set a p hp 46
  have h1 : 0 < (a.set p 46).count 46 := List.count_pos_iff.2 hm
  rw [List.count_append, List.count_cons_self]
  omega

theorem count_dot_set_right (a b : List Byte) (q : Nat) (hq : q < b.length) :
    (a ++ 46 :: b.set q 46).count 46 ≠ 1 := by
  have hm : (46 : Byte) ∈ b.set q 46 := List.mem_set b q hq 46
  have h1 : 0 < (b.set q 46).count 46 := List.count_pos_iff.2 hm
  rw [List.count_append, List.count_cons_self]
  omega

theorem not_mem_set (a : List Byte) (p : Nat) (c : Byte) (ha : (46 : Byte) ∉ a) (hc : c ≠ 46) :
    (46 : Byte) ∉ a.set p c := by
  intro h
  rcases List.mem_or_eq_of_mem_set h with h | h
  · exact ha h
  · exact hc h.symm

/-- A token whose payload segment had one character replaced is rejected by
`verifyValue`, unless only unused bits of the last character changed or the
new payload has the MAC of the old one. -/
theorem verify_tampered_payload (key value : List Byte) (p : Nat) (c : Byte)
    (hp : p < (EncodeToString value).length)
    (hne : c ≠ (EncodeToString value).getD p 0)
    (hb : ¬ (p + 1 = (EncodeToString value).length ∧
      sameUsedBits value.length ((EncodeToString value).getD p 0) c = true))
    (hmac : ∀ v, v ≠ value → DecodeString ((EncodeToString value).set p c) = some v →
      hmacSHA256 key v ≠ hmacSHA256 key value) :
    verifyValue key ((EncodeToString value).set p c ++
      46 :: EncodeToString (hmacSHA256 key value)) = ([], false) := by
  by_cases hc : c = 46
  · rw [hc]
    exact verifyValue_of_count _ _ (count_dot_set _ p hp _)
  · rw [verifyValue_parts _ _ _ (not_mem_set _ p c (dot_not_mem_EncodeToString _) hc)
      (dot_not_mem_EncodeToString _), DecodeString_EncodeToString]
    cases hd : DecodeString ((EncodeToString value).set p c) with
    | none => rfl
    | some v =>
      by_cases hv : v = value
      · rw [hv] at hd
        exact absurd (tampered_segment value p c hp hne hd) hb
      · simp only
        rw [if_neg (hmac v hv hd)]

/-- A token whose signature segment had one character replaced is rejected by
`verifyValue`, unless only unused bits of the last character changed. -/
theorem verify_tampered_signature (key value : List Byte) (q : Nat) (c : Byte)
    (hq : q < (EncodeToString (hmacSHA256 key value)).length)
    (hne : c ≠ (EncodeToString (hmacSHA256 key value)).getD q 0)
    (hb : ¬ (q + 1 = (EncodeToString (hmacSHA256 key value)).length ∧
      sameUsedBits 32 ((EncodeToString (hmacSHA256 key value)).getD q 0) c = true)) :
    verifyValue key (EncodeToString value ++
      46 :: (EncodeToString (hmacSHA256 key value)).set q c) = ([], false) := by
  by_cases hc : c = 46
  · rw [hc]
    exact verifyValue_of_count _ _ (count_dot_set_right _ _ q hq)
  · rw [verifyValue_parts _ _ _ (dot_not_mem_EncodeToString _)
      (not_mem_set _ q c (dot_not_mem_EncodeToString _) hc), DecodeString_EncodeToString]
    cases hd : DecodeString ((EncodeToString (hmacSHA256 key value)).set q c) with
    | none => rfl
    | some sg =>
      simp only
      by_cases hs : hmacSHA256 key value = sg
      · rw [← hs] at hd
        have := tampered_segment (hmacSHA256 key value) q c hq hne hd
        rw [hmacSHA256_length] at this
        exact absurd this hb
      · rw [if_neg hs]

theorem decodeMap_eq_none_iff (c : Byte) : decodeMap c = none ↔ c ∉ encodeURL := by
  unfold decodeMap
  have hl : encodeURL.length = 64 := rfl
  rw [← List.indexOf_lt_length, hl]
  by_cases h : List.indexOf c encodeURL < 64
  · simp [h]
  · simp [h]

theorem newline_not_mem_encodeURL : (10 : Byte) ∉ encodeURL ∧ (13 : Byte) ∉ encodeURL := by
  decide

theorem readSextets_spec : ∀ s : List Byte,
    (readSextets s = none ↔ ∃ c ∈ dropNewlines s, c ∉ encodeURL) ∧
    (∀ l, readSextets s = some l → l.length = (dropNewlines s).length)
  | [] => by simp [readSextets, dropNewlines]
  | c :: cs => by
    obtain ⟨ih1, ih2⟩ := readSextets_spec cs
    cases hd : decodeMap c with
    | some v =>
      have hmem : c ∈ encodeURL := by
        by_contra hn
        rw [(decodeMap_eq_none_iff c).2 hn] at hd
        cases hd
      have h10 : c ≠ 10 := fun e => newline_not_mem_encodeURL.1 (e ▸ hmem)
      have h13 : c ≠ 13 := fun e => newline_not_mem_encodeURL.2 (e ▸ hmem)
      have hdrop : dropNewlines (c :: cs) = c :: dropNewlines cs := by
        simp [dropNewlines, h10, h13]
      rw [hdrop]
      constructor
      · simp only [readSextets, hd, Option.map_eq_none', ih1, List.mem_cons, exists_eq_or_imp,
          hmem, not_true_eq_false, false_or]
      · intro l hl
        simp only [readSextets, hd, Option.map_eq_some'] at hl
        obtain ⟨t, ht, rfl⟩ := hl
        simp [ih2 t ht]
    | none =>
      have hnm : c ∉ encodeURL := (decodeMap_eq_none_iff c).1 hd
      by_cases hnl : c = 10 ∨ c = 13
      · have hdrop : dropNewlines (c :: cs) = dropNewlines cs := by
          rcases hnl with e | e <;> simp [dropNewlines, e]
        rw [hdrop]
        simp only [readSextets, hd, hnl, if_true]
        exact ⟨ih1, ih2⟩
      · have h10 : c ≠ 10 := fun e => hnl (Or.inl e)
        have h13 : c ≠ 13 := fun e => hnl (Or.inr e)
        have hdrop : dropNewlines (c :: cs) = c :: dropNewlines cs := by
          simp [dropNewlines, h10, h13]
        rw [hdrop]
        simp only [readSextets, hd, hnl, if_false]
        constructor
        · simp only [true_iff]
          exact ⟨c, List.mem_cons_self _ _, hnm⟩
        · intro l hl
          cases hl

theorem assemble_eq_none_iff : ∀ l : List Nat, assemble l = none ↔ l.length % 4 = 1
  | [] => by simp [assemble]
  | [_] => by simp [assemble]
  | [_, _] => by simp [assemble]
  | [_, _, _] => by simp [assemble]
  | _ :: _ :: _ :: _ :: rest => by
    simp only [assemble, Option.map_eq_none', assemble_eq_none_iff rest, List.length_cons]
    omega

theorem DecodeString_eq_none_iff (s : List Byte) :
    DecodeString s = none ↔ validRawURL (dropNewlines s) = false := by
  obtain ⟨h1, h2⟩ := readSextets_spec s
  unfold DecodeString validRawURL
  simp only [Bool.and_eq_false_iff, List.all_eq_false, decide_eq_true_eq, decide_eq_false_iff_not,
    ne_eq, not_not]
  cases hr : readSextets s with
  | none =>
    simp only [Option.none_bind, true_iff]
    left
    obtain ⟨c, hc, hn⟩ := h1.1 hr
    exact ⟨c, hc, hn⟩
  | some l =>
    have hlen := h2 l hr
    have hall : ¬ ∃ c ∈ dropNewlines s, c ∉ encodeURL := by
      intro hex
      rw [h1.2 hex] at hr
      cases hr
    simp only [Option.some_bind, assemble_eq_none_iff, hlen]
    constructor
    · intro h; exact Or.inr h
    · rintro (⟨c, hc, hn⟩ | h)
      · exact absurd ⟨c, hc, hn⟩ hall
      · exact h

theorem assemble_set_last : ∀ (l : List Nat) (x : List Byte) (j w : Nat),
    assemble l = some x → (∀ v ∈ l, v < 64) → w < 64 → j + 1 = l.length →
    w / 2 ^ unusedBits x.length = l.getD j 0 / 2 ^ unusedBits x.length →
    assemble (l.set j w) = some x
  | [], _, _, _, _, _, _, hj, _ => by simp at hj
  | [_], _, _, _, h, _, _, _, _ => by simp [assemble] at h
  | [s0, s1], x, j, w, h, hb, hw, hj, he => by
    have h1 : s1 < 64 := hb s1 (by simp)
    simp only [assemble, Option.some.injEq] at h
    subst h
    have hj1 : j = 1 := by simpa using hj
    subst hj1
    have hu : unusedBits ([Fin.ofNat ((s0 * 262144 + s1 * 4096) / 65536)] : List Byte).length = 4 := by
      simp [unusedBits]
    rw [hu] at he
    simp only [List.getD_cons_succ, List.getD_cons_zero] at he
    simp only [List.set_cons_succ, List.set_cons_zero, assemble, Option.some.injEq,
      List.cons.injEq, and_true]
    apply Fin.ext
    simp only [Fin.ofNat, Fin.val_mk]
    omega
  | [s0, s1, s2], x, j, w, h, hb, hw, hj, he => by
    have h2 : s2 < 64 := hb s2 (by simp)
    simp only [assemble, Option.some.injEq] at h
    subst h
    have hj2 : j = 2 := by simpa using hj
    subst hj2
    have hu : unusedBits ([Fin.ofNat ((s0 * 262144 + s1 * 4096 + s2 * 64) / 65536),
        Fin.ofNat ((s0 * 262144 + s1 * 4096 + s2 * 64) / 256)] : List Byte).length = 2 := by
      simp [unusedBits]
    rw [hu] at he
    simp only [List.getD_cons_succ, List.getD_cons_zero] at he
    simp only [List.set_cons_succ, List.set_cons_zero, assemble, Option.some.injEq,
      List.cons.injEq, and_true]
    constructor <;> apply Fin.ext <;> simp only [Fin.ofNat, Fin.val_mk] <;> omega
  | s0 :: s1 :: s2 :: s3 :: rest, x, j, w, h, hb, hw, hj, he => by
    have hrest : ∀ v ∈ rest, v < 64 := fun v hv => hb v (by simp [hv])
    simp only [assemble] at h
    cases hr : assemble rest with
    | none => rw [hr] at h; simp at h
    | some y =>
      rw [hr] at h
      simp only [Option.map_some', Option.some.injEq] at h
      subst h
      simp only [List.length_cons] at hj he
      rw [unusedBits_add_three] at he
      rcases j with _ | _ | _ | _ | k
      · omega
      · omega
      · omega
      · have hnil : rest = [] := List.eq_nil_of_length_eq_zero (by omega)
        subst hnil
        simp only [assemble, Option.some.injEq] at hr
        subst hr
        simp only [List.getD_cons_succ, List.getD_cons_zero, List.length_nil, unusedBits] at he
        have hw3 : w = s3 := by simpa using he
        subst hw3
        simp [assemble]
      · simp only [List.getD_cons_succ] at he
        have ih := assemble_set_last rest y k w hr hrest hw (by omega) he
        simp only [List.set_cons_succ, assemble, ih, Option.map_some']

/-- A segment whose last character is replaced by one with the same used bits
decodes to the same bytes. -/
theorem unused_bits_segment (x : List Byte) (p : Nat) (c : Byte)
    (hp : p + 1 = (EncodeToString x).length)
    (hs : sameUsedBits x.length ((EncodeToString x).getD p 0) c = true) :
    DecodeString ((EncodeToString x).set p c) = some x := by
  have hb := sextets_lt x
  have hlen : (EncodeToString x).length = (sextets x).length := by simp [EncodeToString]
  have hpl : p < (sextets x).length := by omega
  have hwlt : (sextets x).getD p 0 < 64 := by
    rw [List.getD_eq_getElem _ _ hpl]
    exact hb _ (List.getElem_mem _)
  unfold sameUsedBits at hs
  rw [getD_EncodeToString x p hpl, decodeMap_encodeChar_of_lt hwlt] at hs
  cases hd : decodeMap c with
  | none => rw [hd] at hs; cases hs
  | some w =>
    rw [hd] at hs
    simp only [decide_eq_true_eq] at hs
    unfold DecodeString
    have hr : readSextets ((EncodeToString x).set p c) = some ((sextets x).set p w) :=
      readSextets_set_some (sextets x) p c w hb hd
    rw [hr]
    exact assemble_set_last (sextets x) x p w (assemble_sextets x) hb (decodeMap_lt c w hd)
      (by omega) hs.symm

theorem sameUsedBits_ne_dot (n : Nat) (c d : Byte) (h : sameUsedBits n c d = true) : d ≠ 46 := by
  intro e
  subst e
  unfold sameUsedBits at h
  have : decodeMap 46 = none := by decide
  rw [this] at h
  cases hc : decodeMap c <;> rw [hc] at h <;> cases h

theorem tamper_payload_eq (a b : List Byte) (pos i : Nat) (hlt : pos < a.length) :
    tamper (a ++ 46 :: b) pos i = a.set pos (flipBit (a.getD pos 0) i) ++ 46 :: b ∧
    (a ++ 46 :: b).getD pos 0 = a.getD pos 0 := by
  unfold tamper
  rw [List.getD_append _ _ _ _ hlt, List.set_append_left _ _ hlt]
  exact ⟨rfl, rfl⟩

theorem tamper_signature_eq (a b : List Byte) (pos i : Nat) (hgt : a.length < pos) :
    tamper (a ++ 46 :: b) pos i =
      a ++ 46 :: b.set (pos - a.length - 1) (flipBit (b.getD (pos - a.length - 1) 0) i) ∧
    (a ++ 46 :: b).getD pos 0 = b.getD (pos - a.length - 1) 0 := by
  have hsub : pos - a.length = (pos - a.length - 1) + 1 := by omega
  have hget : (a ++ 46 :: b).getD pos 0 = b.getD (pos - a.length - 1) 0 := by
    rw [List.getD_append_right _ _ _ _ (Nat.le_of_lt hgt), hsub, List.getD_cons_succ]
    simp
  unfold tamper
  rw [hget, List.set_append_right _ _ (Nat.le_of_lt hgt)]
  refine ⟨?_, rfl⟩
  rw [hsub, List.set_cons_succ]
  simp

theorem ParseSessionToken_congr (key : List Byte) (now : Int) (t u : List Byte)
    (h : verifyValue key t = verifyValue key u) :
    ParseSessionToken key now t = ParseSessionToken key now u := by
  unfold ParseSessionToken
  rw [h]

theorem tamper_ne (t : List Byte) (pos i : Nat) (hi : i < 8) (hpos : pos < t.length) :
    tamper t pos i ≠ t := by
  intro h
  have h1 : (tamper t pos i).getD pos 0 = flipBit (t.getD pos 0) i := by
    unfold tamper
    rw [List.getD_eq_getElem _ _ (by simpa using hpos), List.getElem_set_self]
  rw [h] at h1
  exact flipBit_ne _ i hi h1.symm

/-! ## The claims -/

/-- C1, as amended: for every subject without `:` and every ttl `d > 0`, a
token resolved under the key it was issued with, at a clock reading not later
than the embedded expiry, gives `(s, true)`; the instant of issuance is such a
reading whenever the epoch seconds involved fit an `int64`. -/
theorem C1_round_trip (key s : List Byte) (now d now2 : Int)
    (hs : (58 : Byte) ∉ s) (hd : 0 < d) (hclk : Unix now2 ≤ Unix (now + d)) :
    ParseSessionToken key now2 (CreateSessionToken key now s d) = (s, true) ∧
    (-9223372036854775808 ≤ now / 1000000000 ∧ (now + d) / 1000000000 < 9223372036854775808 →
      ParseSessionToken key now (CreateSessionToken key now s d) = (s, true)) := by
  constructor
  · rw [resolve_issue key s now d now2 hs, if_neg (not_lt.2 hclk)]
  · intro h
    rw [resolve_issue key s now d now hs, if_neg]
    unfold Unix toInt64
    omega

/-- C1, as amended, at the subject `ab`, ttl one minute and the clock read at
issuance. -/
theorem C1_round_trip_witness :
    (58 : Byte) ∉ ([97, 98] : List Byte) ∧ (0 : Int) < 60000000000 ∧
    Unix 1700000000000000000 ≤ Unix (1700000000000000000 + 60000000000) ∧
    ParseSessionToken exampleKey 1700000000000000000
      (CreateSessionToken exampleKey 1700000000000000000 [97, 98] 60000000000) =
      ([97, 98], true) :=
  ⟨by decide, by decide, by decide,
    (C1_round_trip exampleKey [97, 98] 1700000000000000000 60000000000 1700000000000000000
      (by decide) (by decide) (by decide)).1⟩

/-- C1 fails for the subject `a:b`: with ttl one minute and the clock read at
the instant of issuance, the token does not resolve. -/
theorem C1_round_trip_counterexample :
    (0 : Int) < 60000000000 ∧
    Unix 1700000000000000000 ≤ Unix (1700000000000000000 + 60000000000) ∧
    ParseSessionToken exampleKey 1700000000000000000
      (CreateSessionToken exampleKey 1700000000000000000 [97, 58, 98] 60000000000) =
      ([], false) :=
  ⟨by decide, by decide, resolve_issue_colon _ _ _ _ _ (by decide)⟩

/-- C2, as amended: flipping one bit of one character of the payload segment
or of the signature segment of a token `CreateSessionToken` issued gives a
different string; if the flip changes nothing but bits of the last character
of a segment that encode no data, `ParseSessionToken` resolves the new string
exactly as the token; otherwise it returns `ok = false`, provided that, when
the flipped payload segment still decodes, to another payload, that payload
does not have the HMAC of the original one. -/
theorem C2_tamper_rejection (key s : List Byte) (now d now2 : Int) (pos i : Nat)
    (hi : i < 8)
    (hpos : pos < (CreateSessionToken key now s d).length)
    (hseg : pos ≠ (EncodeToString (sessionPayload now s d)).length) :
    tamper (CreateSessionToken key now s d) pos i ≠ CreateSessionToken key now s d ∧
    (flipsUnusedBits (CreateSessionToken key now s d)
        (sessionPayload now s d).length pos i = false →
      (∀ v, v ≠ sessionPayload now s d →
        DecodeString ((tamper (CreateSessionToken key now s d) pos i).take
          (EncodeToString (sessionPayload now s d)).length) = some v →
        hmacSHA256 key v ≠ hmacSHA256 key (sessionPayload now s d)) →
      ParseSessionToken key now2 (tamper (CreateSessionToken key now s d) pos i) =
        ([], false)) ∧
    (flipsUnusedBits (CreateSessionToken key now s d)
        (sessionPayload now s d).length pos i = true →
      ParseSessionToken key now2 (tamper (CreateSessionToken key now s d) pos i) =
        ParseSessionToken key now2 (CreateSessionToken key now s d)) := by
  refine ⟨tamper_ne _ pos i hi hpos, ?_, ?_⟩
  · intro hbits hmac
    have htok : CreateSessionToken key now s d =
        EncodeToString (sessionPayload now s d) ++
          46 :: EncodeToString (hmacSHA256 key (sessionPayload now s d)) := rfl
    generalize sessionPayload now s d = value at *
    rw [htok] at hpos hbits hmac ⊢
    have halen : (EncodeToString value).length = (4 * value.length + 2) / 3 := by
      simp [EncodeToString, sextets_length]
    apply ParseSessionToken_of_reject
    unfold flipsUnusedBits at hbits
    simp only [Bool.or_eq_false_iff, Bool.and_eq_false_iff, decide_eq_false_iff_not] at hbits
    rcases Nat.lt_or_gt_of_ne hseg with hlt | hgt
    · obtain ⟨ht, hg⟩ := tamper_payload_eq (EncodeToString value)
        (EncodeToString (hmacSHA256 key value)) pos i hlt
      rw [hg] at hbits
      rw [ht] at hmac ⊢
      rw [List.take_left' (by simp)] at hmac
      rw [verify_tampered_payload key value pos _ hlt (flipBit_ne _ i hi) ?_ hmac]
      rintro ⟨h1, h2⟩
      rcases hbits.1 with h | h
      · exact h (by rw [← halen]; exact h1)
      · rw [h2] at h
        cases h
    · have hq : pos - (EncodeToString value).length - 1 <
          (EncodeToString (hmacSHA256 key value)).length := by
        simp only [List.length_append, List.length_cons] at hpos
        omega
      obtain ⟨ht, hg⟩ := tamper_signature_eq (EncodeToString value)
        (EncodeToString (hmacSHA256 key value)) pos i hgt
      rw [hg] at hbits
      rw [ht]
      rw [verify_tampered_signature key value _ _ hq (flipBit_ne _ i hi) ?_]
      rintro ⟨h1, h2⟩
      rcases hbits.2 with h | h
      · apply h
        simp only [List.length_append, List.length_cons]
        omega
      · rw [h2] at h
        cases h
  · intro hbits
    have htok : CreateSessionToken key now s d =
        EncodeToString (sessionPayload now s d) ++
          46 :: EncodeToString (hmacSHA256 key (sessionPayload now s d)) := rfl
    have hsign : verifyValue key (CreateSessionToken key now s d) =
        (sessionPayload now s d, true) := verifyValue_signValue _ _
    generalize sessionPayload now s d = value at *
    apply ParseSessionToken_congr
    rw [hsign]
    rw [htok] at hpos hbits ⊢
    have halen : (EncodeToString value).length = (4 * value.length + 2) / 3 := by
      simp [EncodeToString, sextets_length]
    unfold flipsUnusedBits at hbits
    simp only [Bool.or_eq_true, Bool.and_eq_true, decide_eq_true_eq] at hbits
    rcases Nat.lt_or_gt_of_ne hseg with hlt | hgt
    · obtain ⟨ht, hg⟩ := tamper_payload_eq (EncodeToString value)
        (EncodeToString (hmacSHA256 key value)) pos i hlt
      rw [hg] at hbits
      rw [ht]
      have hb : pos + 1 = (EncodeToString value).length ∧
          sameUsedBits value.length ((EncodeToString value).getD pos 0)
            (flipBit ((EncodeToString value).getD pos 0) i) = true := by
        rcases hbits with h | h
        · exact ⟨by rw [halen]; exact h.1, h.2⟩
        · simp only [List.length_append, List.length_cons] at h
          omega
      rw [verifyValue_parts _ _ _
        (not_mem_set _ pos _ (dot_not_mem_EncodeToString _) (sameUsedBits_ne_dot _ _ _ hb.2))
        (dot_not_mem_EncodeToString _), unused_bits_segment value pos _ hb.1 hb.2,
        DecodeString_EncodeToString]
      simp
    · obtain ⟨ht, hg⟩ := tamper_signature_eq (EncodeToString value)
        (EncodeToString (hmacSHA256 key value)) pos i hgt
      rw [hg] at hbits
      rw [ht]
      have hb : pos - (EncodeToString value).length - 1 + 1 =
            (EncodeToString (hmacSHA256 key value)).length ∧
          sameUsedBits (hmacSHA256 key value).length
            ((EncodeToString (hmacSHA256 key value)).getD
              (pos - (EncodeToString value).length - 1) 0)
            (flipBit ((EncodeToString (hmacSHA256 key value)).getD
              (pos - (EncodeToString value).length - 1) 0) i) = true := by
        rw [hmacSHA256_length]
        rcases hbits with h | h
        · omega
        · simp only [List.length_append, List.length_cons] at h
          exact ⟨by omega, h.2⟩
      rw [verifyValue_parts _ _ _ (dot_not_mem_EncodeToString _)
        (not_mem_set _ _ _ (dot_not_mem_EncodeToString _) (sameUsedBits_ne_dot _ _ _ hb.2)),
        unused_bits_segment (hmacSHA256 key value) _ _ hb.1 hb.2,
        DecodeString_EncodeToString]
      simp

set_option maxRecDepth 1000000 in
/-- C2, as amended, at bit 0 of the first character of the token of `u1`: the
payload segment then decodes to `y1:1700000000`, whose MAC differs, and the
token is rejected. -/
theorem C2_tamper_rejection_witness :
    flipsUnusedBits (CreateSessionToken exampleKey 1699999990000000000 [117, 49] 10000000000)
      (sessionPayload 1699999990000000000 [117, 49] 10000000000).length 0 0 = false ∧
    DecodeString ((tamper (CreateSessionToken exampleKey 1699999990000000000 [117, 49]
      10000000000) 0 0).take 18) = some [121, 49, 58, 49, 55, 48, 48, 48, 48, 48, 48, 48, 48] ∧
    hmacSHA256 exampleKey [121, 49, 58, 49, 55, 48, 48, 48, 48, 48, 48, 48, 48] ≠
      hmacSHA256 exampleKey (sessionPayload 1699999990000000000 [117, 49] 10000000000) ∧
    ParseSessionToken exampleKey 1699999990000000000
      (tamper (CreateSessionToken exampleKey 1699999990000000000 [117, 49] 10000000000) 0 0) =
      ([], false) := by
  have h1 : flipsUnusedBits
      (CreateSessionToken exampleKey 1699999990000000000 [117, 49] 10000000000)
      (sessionPayload 1699999990000000000 [117, 49] 10000000000).length 0 0 = false := by decide
  have h2 : DecodeString ((tamper (CreateSessionToken exampleKey 1699999990000000000 [117, 49]
      10000000000) 0 0).take (EncodeToString
        (sessionPayload 1699999990000000000 [117, 49] 10000000000)).length) =
      some [121, 49, 58, 49, 55, 48, 48, 48, 48, 48, 48, 48, 48] := by decide
  have h3 : hmacSHA256 exampleKey [121, 49, 58, 49, 55, 48, 48, 48, 48, 48, 48, 48, 48] ≠
      hmacSHA256 exampleKey (sessionPayload 1699999990000000000 [117, 49] 10000000000) := by
    decide
  refine ⟨h1, h2, h3, ?_⟩
  refine (C2_tamper_rejection exampleKey [117, 49] 1699999990000000000 10000000000
    1699999990000000000 0 0 (by decide) (by decide) (by decide)).2.1 h1 ?_
  intro v _ hv
  rw [h2] at hv
  cases hv
  exact h3

set_option maxRecDepth 1000000 in
/-- C2 fails for the token of subject `u1` with expiry second 1700000000:
flipping bit 1 of the last character of its payload segment (`A` becomes `C`)
gives a different string that still resolves to `u1`. -/
theorem C2_tamper_rejection_counterexample :
    (17 < (EncodeToString (sessionPayload 1699999990000000000 [117, 49] 10000000000)).length ∧
      tamper (CreateSessionToken exampleKey 1699999990000000000 [117, 49] 10000000000) 17 1 ≠
        CreateSessionToken exampleKey 1699999990000000000 [117, 49] 10000000000) ∧
    ParseSessionToken exampleKey 1699999990000000000
      (tamper (CreateSessionToken exampleKey 1699999990000000000 [117, 49] 10000000000) 17 1) =
      ([117, 49], true) := by decide

/-- C3, as amended: for a subject without `:`, a token issued at `issuedAt`
with ttl `d` resolves when the clock reads `issuedAt + d`; it is rejected at
every clock reading whose epoch second is the expiry second plus one, in
particular at `issuedAt + d + 1s` when these seconds fit an `int64`; and it
resolves exactly at the readings whose epoch second is at most the expiry
second (the test is the strict `now > expiresAt`). -/
theorem C3_expiry_boundary (key s : List Byte) (issuedAt d : Int) (hs : (58 : Byte) ∉ s) :
    ParseSessionToken key (issuedAt + d) (CreateSessionToken key issuedAt s d) = (s, true) ∧
    (∀ now, Unix now = Unix (issuedAt + d) + 1 →
      ParseSessionToken key now (CreateSessionToken key issuedAt s d) = ([], false)) ∧
    (-9223372036854775808 ≤ (issuedAt + d) / 1000000000 ∧
        (issuedAt + d) / 1000000000 < 9223372036854775807 →
      ParseSessionToken key (issuedAt + d + 1000000000) (CreateSessionToken key issuedAt s d) =
        ([], false)) ∧
    (∀ now, (ParseSessionToken key now (CreateSessionToken key issuedAt s d)).2 = true ↔
      Unix now ≤ Unix (issuedAt + d)) := by
  refine ⟨?_, ?_, ?_, ?_⟩
  · rw [resolve_issue key s issuedAt d _ hs, if_neg (lt_irrefl _)]
  · intro now h
    rw [resolve_issue key s issuedAt d _ hs, if_pos (by omega)]
  · intro h
    rw [resolve_issue key s issuedAt d _ hs, if_pos]
    unfold Unix toInt64
    omega
  · intro now
    rw [resolve_issue key s issuedAt d _ hs]
    by_cases h : Unix now > Unix (issuedAt + d)
    · simp [h]
    · simp [h, not_lt.1 h]

/-- C3, as amended, at the subject `u1` and a day-long ttl: accepted at the
expiry instant, rejected one second later. -/
theorem C3_expiry_boundary_witness :
    (58 : Byte) ∉ ([117, 49] : List Byte) ∧
    ParseSessionToken exampleKey (1700000000000000000 + 86400000000000)
      (CreateSessionToken exampleKey 1700000000000000000 [117, 49] 86400000000000) =
      ([117, 49], true) ∧
    ParseSessionToken exampleKey (1700000000000000000 + 86400000000000 + 1000000000)
      (CreateSessionToken exampleKey 1700000000000000000 [117, 49] 86400000000000) =
      ([], false) :=
  ⟨by decide,
    (C3_expiry_boundary exampleKey [117, 49] 1700000000000000000 86400000000000 (by decide)).1,
    (C3_expiry_boundary exampleKey [117, 49] 1700000000000000000 86400000000000
      (by decide)).2.2.1 (by decide)⟩

/-- C3 fails for the subject `a:b`: the token issued with ttl one day is
rejected when the clock reads `issuedAt + d`. -/
theorem C3_expiry_boundary_counterexample :
    ParseSessionToken exampleKey (1700000000000000000 + 86400000000000)
      (CreateSessionToken exampleKey 1700000000000000000 [97, 58, 98] 86400000000000) =
      ([], false) :=
  resolve_issue_colon _ _ _ _ _ (by decide)

/-- C4, as amended: `ParseSessionToken` returns `ok = false` for the empty
string, for every string without `.`, for every string with more than one
`.`, and for every string `a.b` in which `a` or `b`, once the `\n` and `\r`
characters the decoder skips are removed, is not a valid unpadded base64url
string. -/
theorem C4_malformed_input (key : List Byte) (now : Int) :
    ParseSessionToken key now [] = ([], false) ∧
    (∀ t, (46 : Byte) ∉ t → ParseSessionToken key now t = ([], false)) ∧
    (∀ t, 2 ≤ t.count 46 → ParseSessionToken key now t = ([], false)) ∧
    (∀ a b, validRawURL (dropNewlines a) = false ∨ validRawURL (dropNewlines b) = false →
      ParseSessionToken key now (a ++ 46 :: b) = ([], false)) := by
  have hcount : ∀ t : List Byte, t.count 46 ≠ 1 → ParseSessionToken key now t = ([], false) := by
    intro t h
    apply ParseSessionToken_of_reject
    rw [verifyValue_of_count key t h]
  refine ⟨hcount [] (by simp), ?_, ?_, ?_⟩
  · intro t h
    apply hcount
    rw [List.count_eq_zero_of_not_mem h]
    decide
  · intro t h
    apply hcount
    omega
  · intro a b h
    by_cases hc : (a ++ 46 :: b).count 46 = 1
    · have hab : (46 : Byte) ∉ a ∧ (46 : Byte) ∉ b := by
        rw [List.count_append, List.count_cons_self] at hc
        constructor
        · intro hm
          have := List.count_pos_iff.2 hm
          omega
        · intro hm
          have := List.count_pos_iff.2 hm
          omega
      apply ParseSessionToken_of_reject
      rw [verifyValue_parts key a b hab.1 hab.2]
      rcases h with h | h
      · rw [(DecodeString_eq_none_iff a).2 h]
      · rw [(DecodeString_eq_none_iff b).2 h]
        cases DecodeString a <;> rfl
    · exact hcount _ hc

set_option maxRecDepth 1000000 in
/-- C4 fails for a token with a line feed appended to its payload segment:
`dTE6MTcwMDAwMDAwMA\n` is no valid base64url string, but the decoder skips the
line feed and the token resolves to `u1`. -/
theorem C4_malformed_input_counterexample :
    validRawURL (EncodeToString (sessionPayload 1699999990000000000 [117, 49] 10000000000) ++
      [10]) = false ∧
    ParseSessionToken exampleKey 1699999990000000000
      ((EncodeToString (sessionPayload 1699999990000000000 [117, 49] 10000000000) ++ [10]) ++
        46 :: EncodeToString (hmacSHA256 exampleKey
          (sessionPayload 1699999990000000000 [117, 49] 10000000000))) =
      ([117, 49], true) := by decide

/-- C5: the token `signValue` builds is `base64url(v) + "." +
base64url(HMAC-SHA256(k, v))`, written with the characters of the URL-safe
alphabet only and without padding (a segment has `ceil(4n/3)` characters, the
signature segment 43), and `verifyValue` under the same key gives back
`(v, true)`. -/
theorem C5_codec_round_trip (k v : List Byte) :
    signValue k v = EncodeToString v ++ 46 :: EncodeToString (hmacSHA256 k v) ∧
    (∀ c ∈ EncodeToString v ++ EncodeToString (hmacSHA256 k v), c ∈ encodeURL) ∧
    (EncodeToString v).length = (4 * v.length + 2) / 3 ∧
    (EncodeToString (hmacSHA256 k v)).length = 43 ∧
    verifyValue k (signValue k v) = (v, true) := by
  refine ⟨rfl, ?_, ?_, ?_, verifyValue_signValue k v⟩
  · intro c hc
    rcases List.mem_append.1 hc with h | h
    · exact mem_encodeURL_of_mem_EncodeToString _ c h
    · exact mem_encodeURL_of_mem_EncodeToString _ c h
  · simp [EncodeToString, sextets_length]
  · simp [EncodeToString, sextets_length, hmacSHA256_length]

/-- C6, as amended: a token signed under `K1` is rejected under `K2` exactly
when HMAC-SHA256 of the value under `K2` differs from that under `K1`; when
the two MACs differ the result is the empty value with `ok = false`, and a
session token issued under `K1` does not resolve under `K2`. -/
theorem C6_key_sensitivity (k1 k2 v : List Byte) :
    ((verifyValue k2 (signValue k1 v)).2 = false ↔ hmacSHA256 k2 v ≠ hmacSHA256 k1 v) ∧
    (hmacSHA256 k2 v ≠ hmacSHA256 k1 v → verifyValue k2 (signValue k1 v) = ([], false)) ∧
    (hmacSHA256 k2 v ≠ hmacSHA256 k1 v →
      ∀ (now now2 d : Int) (s : List Byte), v = sessionPayload now s d →
        ParseSessionToken k2 now2 (CreateSessionToken k1 now s d) = ([], false)) := by
  have hv : hmacSHA256 k2 v ≠ hmacSHA256 k1 v →
      verifyValue k2 (signValue k1 v) = ([], false) := by
    intro h
    rw [verifyValue_other_key, if_neg h]
  refine ⟨?_, hv, ?_⟩
  · constructor
    · intro h he
      rw [verifyValue_other_key, if_pos he] at h
      cases h
    · intro h
      rw [hv h]
  · intro h now now2 d s hs
    apply ParseSessionToken_of_reject
    have ht : CreateSessionToken k1 now s d = signValue k1 v := by
      rw [hs]
      rfl
    rw [ht, hv h]

set_option maxRecDepth 1000000 in
/-- C6 at two 16-byte keys that differ in their last byte: the MACs differ and
the token is rejected. -/
theorem C6_key_sensitivity_witness :
    hmacSHA256 [1, 2, 3, 4, 5, 6, 7, 8, 9, 10, 11, 12, 13, 14, 15, 17] [117, 49, 58, 48] ≠
      hmacSHA256 [1, 2, 3, 4, 5, 6, 7, 8, 9, 10, 11, 12, 13, 14, 15, 16] [117, 49, 58, 48] ∧
    verifyValue [1, 2, 3, 4, 5, 6, 7, 8, 9, 10, 11, 12, 13, 14, 15, 17]
      (signValue [1, 2, 3, 4, 5, 6, 7, 8, 9, 10, 11, 12, 13, 14, 15, 16] [117, 49, 58, 48]) =
      ([], false) :=
  ⟨by decide,
    (C6_key_sensitivity [1, 2, 3, 4, 5, 6, 7, 8, 9, 10, 11, 12, 13, 14, 15, 16]
      [1, 2, 3, 4, 5, 6, 7, 8, 9, 10, 11, 12, 13, 14, 15, 17] [117, 49, 58, 48]).2.1 (by decide)⟩

/-- C6 fails for a 16-byte key and the same key followed by a zero byte:
`hmac.New` pads both to the same 64-byte block, so the token signed under the
first is accepted under the second. -/
theorem C6_key_sensitivity_counterexample :
    ([1, 2, 3, 4, 5, 6, 7, 8, 9, 10, 11, 12, 13, 14, 15, 16] : List Byte) ≠
      [1, 2, 3, 4, 5, 6, 7, 8, 9, 10, 11, 12, 13, 14, 15, 16, 0] ∧
    verifyValue [1, 2, 3, 4, 5, 6, 7, 8, 9, 10, 11, 12, 13, 14, 15, 16, 0]
      (signValue [1, 2, 3, 4, 5, 6, 7, 8, 9, 10, 11, 12, 13, 14, 15, 16] [117, 49, 58, 48]) =
      ([117, 49, 58, 48], true) := by
  refine ⟨by decide, ?_⟩
  rw [verifyValue_other_key, if_pos]
  have hk : hmacBlockKey [1, 2, 3, 4, 5, 6, 7, 8, 9, 10, 11, 12, 13, 14, 15, 16, 0] =
      hmacBlockKey [1, 2, 3, 4, 5, 6, 7, 8, 9, 10, 11, 12, 13, 14, 15, 16] := by decide
  unfold hmacSHA256
  rw [hk]

/-- C7: the handler `AuthMiddleware` builds calls the wrapped handler only on
a request whose `session` cookie has a non-empty value that
`ParseSessionToken` resolves with `ok = true` to a non-empty subject; on every
other request (no cookie, empty cookie, failed resolution) it redirects to
`/login` and does not call the wrapped handler; it always does one of the
two. -/
theorem C7_auth_gate (key : List Byte) (now : Int) (userExists : List Byte → Bool)
    (r : Request) :
    (AuthMiddleware key now userExists r = Outcome.next →
      ∃ value userID, r.Cookie sessionCookie = some value ∧ value ≠ [] ∧
        ParseSessionToken key now value = (userID, true) ∧ userID ≠ []) ∧
    ((¬ ∃ value userID, r.Cookie sessionCookie = some value ∧ value ≠ [] ∧
        ParseSessionToken key now value = (userID, true) ∧ userID ≠ []) →
      AuthMiddleware key now userExists r = Outcome.redirect loginPath 303) ∧
    (r.Cookie sessionCookie = none →
      AuthMiddleware key now userExists r = Outcome.redirect loginPath 303) ∧
    (r.Cookie sessionCookie = some [] →
      AuthMiddleware key now userExists r = Outcome.redirect loginPath 303) ∧
    (∀ value, r.Cookie sessionCookie = some value →
      (ParseSessionToken key now value).2 = false →
      AuthMiddleware key now userExists r = Outcome.redirect loginPath 303) ∧
    (AuthMiddleware key now userExists r = Outcome.next ∨
      AuthMiddleware key now userExists r = Outcome.redirect loginPath 303) := by
  have hdef : AuthMiddleware key now userExists r =
      match r.Cookie sessionCookie with
      | none => Outcome.redirect loginPath 303
      | some value =>
        if value = [] then Outcome.redirect loginPath 303
        else if (ParseSessionToken key now value).2 = false ∨
            (ParseSessionToken key now value).1 = [] then Outcome.redirect loginPath 303
        else if userExists (ParseSessionToken key now value).1 = false then
          Outcome.redirect loginPath 303
        else Outcome.next := rfl
  have key1 : AuthMiddleware key now userExists r = Outcome.next →
      ∃ value userID, r.Cookie sessionCookie = some value ∧ value ≠ [] ∧
        ParseSessionToken key now value = (userID, true) ∧ userID ≠ [] := by
    rw [hdef]
    cases hc : r.Cookie sessionCookie with
    | none => intro h; cases h
    | some value =>
      intro h
      simp only at h
      by_cases hv : value = []
      · rw [if_pos hv] at h; cases h
      · by_cases h1 : (ParseSessionToken key now value).2 = false ∨
            (ParseSessionToken key now value).1 = []
        · rw [if_neg hv, if_pos h1] at h; cases h
        · have hok : (ParseSessionToken key now value).2 = true := by
            cases hb : (ParseSessionToken key now value).2
            · exact absurd (Or.inl hb) h1
            · rfl
          exact ⟨value, (ParseSessionToken key now value).1, rfl, hv,
            Prod.ext rfl hok, fun e => h1 (Or.inr e)⟩
  have key2 : AuthMiddleware key now userExists r = Outcome.next ∨
      AuthMiddleware key now userExists r = Outcome.redirect loginPath 303 := by
    rw [hdef]
    cases r.Cookie sessionCookie with
    | none => exact Or.inr rfl
    | some value =>
      simp only
      by_cases hv : value = []
      · rw [if_pos hv]; exact Or.inr rfl
      · rw [if_neg hv]
        by_cases h1 : (ParseSessionToken key now value).2 = false ∨
            (ParseSessionToken key now value).1 = []
        · rw [if_pos h1]; exact Or.inr rfl
        · rw [if_neg h1]
          by_cases h2 : userExists (ParseSessionToken key now value).1 = false
          · rw [if_pos h2]; exact Or.inr rfl
          · rw [if_neg h2]; exact Or.inl rfl
  have key3 : (¬ ∃ value userID, r.Cookie sessionCookie = some value ∧ value ≠ [] ∧
        ParseSessionToken key now value = (userID, true) ∧ userID ≠ []) →
      AuthMiddleware key now userExists r = Outcome.redirect loginPath 303 := by
    intro hn
    rcases key2 with h | h
    · exact absurd (key1 h) hn
    · exact h
  refine ⟨key1, key3, ?_, ?_, ?_, key2⟩
  · intro hc
    apply key3
    rintro ⟨value, userID, h, _⟩
    rw [hc] at h
    cases h
  · intro hc
    apply key3
    rintro ⟨value, userID, h, hne, _⟩
    rw [hc] at h
    cases h
    exact hne rfl
  · intro value hc hp
    apply key3
    rintro ⟨value2, userID, h, _, hp2, _⟩
    rw [hc] at h
    cases h
    rw [hp2] at hp
    cases hp

/-- C8: when `init` returns after `rand.Read` delivered the bytes `r`, the
session key is the decoding of the configured value exactly when that value is
non-empty, decodes without error and decodes to at least 16 bytes; in every
other case it is the 32 generated bytes; the key is always at least 16 bytes
long. -/
theorem C8_secret_key_resolution (v : List Byte) (r : Fin 32 → Byte) :
    ∃ key, init v (some r) = some key ∧
      (DecodeString v = some key ↔
        (v ≠ [] ∧ ∃ k, DecodeString v = some k ∧ 16 ≤ k.length)) ∧
      (¬ (v ≠ [] ∧ ∃ k, DecodeString v = some k ∧ 16 ≤ k.length) →
        key = List.ofFn r ∧ key.length = 32) ∧
      16 ≤ key.length := by
  unfold init
  by_cases hv : v = []
  · subst hv
    refine ⟨List.ofFn r, by simp, ?_, by simp, by simp⟩
    constructor
    · intro h
      have : DecodeString [] = some [] := rfl
      rw [this] at h
      have hl := congrArg (fun o => o.map List.length) h
      simp at hl
    · rintro ⟨h, _⟩
      exact absurd rfl h
  · cases hd : DecodeString v with
    | none =>
      refine ⟨List.ofFn r, by simp [hv], ?_, by simp, by simp⟩
      constructor
      · intro h; cases h
      · rintro ⟨_, k, hk, _⟩; cases hk
    | some k =>
      by_cases hk : 16 ≤ k.length
      · refine ⟨k, by simp [hv, hk], ?_, ?_, hk⟩
        · exact ⟨fun _ => ⟨hv, k, rfl, hk⟩, fun _ => rfl⟩
        · intro hn
          exact absurd ⟨hv, k, rfl, hk⟩ hn
      · refine ⟨List.ofFn r, by simp [hv, hk], ?_, by simp, by simp⟩
        constructor
        · intro h
          have hl : k.length = 32 := by
            have := Option.some.inj h
            rw [this]; simp
          omega
        · rintro ⟨_, k2, hk2, hlen⟩
          cases hk2
          exact absurd hlen hk

/-- C9: for a subject without `:` the payload `CreateSessionToken` signs is
`s + ":" + epochSeconds`; `ParseSessionToken` recovers that payload, splits it
into exactly `s` and the decimal text that was written, reads the written
expiry back from it, and at every clock reading not later than that expiry
returns `(s, true)`. -/
theorem C9_delimiter_edge_case (key s : List Byte) (now d now2 : Int)
    (hs : (58 : Byte) ∉ s) (hclk : Unix now2 ≤ Unix (now + d)) :
    verifyValue key (CreateSessionToken key now s d) =
      (s ++ 58 :: FormatInt (Unix (now + d)), true) ∧
    SplitN2 58 (s ++ 58 :: FormatInt (Unix (now + d))) = [s, FormatInt (Unix (now + d))] ∧
    ParseInt (FormatInt (Unix (now + d))) = some (Unix (now + d)) ∧
    ParseSessionToken key now2 (CreateSessionToken key now s d) = (s, true) := by
  have hr := toInt64_range ((now + d) / 1000000000)
  refine ⟨verifyValue_signValue _ _, ?_, ParseInt_FormatInt _ hr.1 hr.2, ?_⟩
  · simp only [SplitN2, Cut_append 58 _ s hs]
  · rw [resolve_issue key s now d now2 hs, if_neg (not_lt.2 hclk)]

/-- C9 at the subject `u1`, a day-long ttl and the clock read at issuance. -/
theorem C9_delimiter_edge_case_witness :
    (58 : Byte) ∉ ([117, 49] : List Byte) ∧
    Unix 1700000000000000000 ≤ Unix (1700000000000000000 + 86400000000000) ∧
    ParseSessionToken exampleKey 1700000000000000000
      (CreateSessionToken exampleKey 1700000000000000000 [117, 49] 86400000000000) =
      ([117, 49], true) :=
  ⟨by decide, by decide,
    (C9_delimiter_edge_case exampleKey [117, 49] 1700000000000000000 86400000000000
      1700000000000000000 (by decide) (by decide)).2.2.2⟩

/-- C10, as amended: for every subject that contains `:`, the token issued
for it is rejected at every clock reading, with the empty subject: the text
after the first `:` is no integer. -/
theorem C10_colon_in_subject (key s : List Byte) (now d now2 : Int) (hs : (58 : Byte) ∈ s) :
    ParseSessionToken key now2 (CreateSessionToken key now s d) = ([], false) :=
  resolve_issue_colon key s now d now2 hs

/-- C10, as amended, at the subject `a:`. -/
theorem C10_colon_in_subject_witness :
    (58 : Byte) ∈ ([97, 58] : List Byte) ∧
    ParseSessionToken exampleKey 0 (CreateSessionToken exampleKey 0 [97, 58] 1000000000) = ([], false) :=
  ⟨by decide, C10_colon_in_subject exampleKey [97, 58] 0 1000000000 0 (by decide)⟩

/-- C10 fails for the subject `u:1`: one hour into a day-long token the
result is not the prefix `u` with `ok = true` but the empty subject with
`ok = false`. -/
theorem C10_colon_in_subject_counterexample :
    ParseSessionToken exampleKey (1700000000000000000 + 3600000000000)
      (CreateSessionToken exampleKey 1700000000000000000 [117, 58, 49] 86400000000000) ≠
      ([117], true) ∧
    ParseSessionToken exampleKey (1700000000000000000 + 3600000000000)
      (CreateSessionToken exampleKey 1700000000000000000 [117, 58, 49] 86400000000000) =
      ([], false) := by
  have h := resolve_issue_colon exampleKey [117, 58, 49] 1700000000000000000 86400000000000
    (1700000000000000000 + 3600000000000) (by decide)
  exact ⟨by rw [h]; decide, h⟩

end Webserver
